import Mathlib

/-!
Verification of the textdb library: a read-only, index-free key lookup over a
flat newline-delimited, tab-separated byte buffer whose lines are pre-sorted by
a designated key column.

The embedding models the buffer as a `List Nat` of byte values (newline = 10,
tab = 9).  Fallible operations (Rust panics: failed `assert!` macros and
out-of-range slice indexing) are modelled by `Option`, with `none` denoting a
panic.  The bisection loop of `get_matching_lines` is modelled as a step
function `gmlStep` plus an iteration function; the comparator (the `Accessor`
trait) is a parameter `cmp : List Nat → Ordering` giving, for the fixed search
key, the ordering of a line's key column against that key.
-/

namespace TextDb

/-- Three-way comparison derived from a linear order; this is the meaning of
`Ord::cmp` for the ordered key types used by the accessors. -/
def cmp3 {K : Type*} [LinearOrder K] (a b : K) : Ordering :=
  if a < b then .lt else if a = b then .eq else .gt

/-- Rust `slice::split(|b| *b == sep)`: split a byte list on a separator byte.
Splitting the empty slice yields one empty piece, exactly as in Rust. -/
def splitOn (sep : Nat) : List Nat → List (List Nat)
  | [] => [[]]
  | b :: rest =>
    if b = sep then [] :: splitOn sep rest
    else
      match splitOn sep rest with
      | [] => [[b]]
      | f :: fs => (b :: f) :: fs

/-- Skip `i` fields of an iterator of fields and return the next one, or the
empty slice when the iterator runs out: the body of `Accessor::col`. -/
def colFields : List (List Nat) → Nat → List Nat
  | [], _ => []
  | f :: _, 0 => f
  | _ :: fs, i + 1 => colFields fs i

/-- `Accessor::col(line, i)`: the `i`-th tab-separated field of a line, or the
empty byte range when `i` is out of range. -/
def col (sep : Nat) (line : List Nat) (i : Nat) : List Nat :=
  colFields (splitOn sep line) i

/-- `Accessor::key` for a TSV accessor with key column `kc`. -/
def tsvKey (kc : Nat) (line : List Nat) : List Nat :=
  col 9 line kc

/-- Rust `Ord` on byte slices: lexicographic comparison, a shorter strict
prefix comparing less. -/
def lexCmp : List Nat → List Nat → Ordering
  | [], [] => .eq
  | [], _ :: _ => .lt
  | _ :: _, [] => .gt
  | a :: as_, b :: bs =>
    match cmp3 a b with
    | .eq => lexCmp as_ bs
    | o => o

/-- `TsvText::compare_key`: compare a line's key column against a byte key. -/
def tsvTextCompareKey (kc : Nat) (line k : List Nat) : Ordering :=
  lexCmp (tsvKey kc line) k

/-- `TsvText`'s inherited `Accessor::compare_lines`: compare the key columns of
two lines as raw bytes. -/
def tsvTextCompareLines (kc : Nat) (a b : List Nat) : Ordering :=
  lexCmp (tsvKey kc a) (tsvKey kc b)

/-- RFC 3629 UTF-8 validity of a byte sequence: the success condition of
`std::str::from_utf8`. -/
def utf8Valid : List Nat → Bool
  | [] => true
  | c :: rest =>
    if c < 0x80 then utf8Valid rest
    else if c < 0xC2 then false
    else if c ≤ 0xDF then
      match rest with
      | c1 :: r => decide (0x80 ≤ c1 ∧ c1 ≤ 0xBF) && utf8Valid r
      | [] => false
    else if c ≤ 0xEF then
      match rest with
      | c1 :: c2 :: r =>
        decide ((if c = 0xE0 then 0xA0 else 0x80) ≤ c1
                ∧ c1 ≤ (if c = 0xED then 0x9F else 0xBF))
          && decide (0x80 ≤ c2 ∧ c2 ≤ 0xBF) && utf8Valid r
      | _ => false
    else if c ≤ 0xF4 then
      match rest with
      | c1 :: c2 :: c3 :: r =>
        decide ((if c = 0xF0 then 0x90 else 0x80) ≤ c1
                ∧ c1 ≤ (if c = 0xF4 then 0x8F else 0xBF))
          && decide (0x80 ≤ c2 ∧ c2 ≤ 0xBF) && decide (0x80 ≤ c3 ∧ c3 ≤ 0xBF)
          && utf8Valid r
      | _ => false
    else false

/-- `std::str::from_utf8(..).unwrap_or_default()`: the bytes themselves when
they are valid UTF-8, the empty string otherwise. -/
def utf8OrEmpty (s : List Nat) : List Nat :=
  if utf8Valid s then s else []

/-- Digit accumulation of `FromStr` for an unsigned integer type. -/
def parseDigits (acc : Nat) : List Nat → Option Nat
  | [] => some acc
  | c :: cs => if 48 ≤ c ∧ c ≤ 57 then parseDigits (acc * 10 + (c - 48)) cs else none

/-- `<uN as FromStr>::from_str`, for an unsigned integer type with maximum
value `maxV`: an optional leading `+` sign, then one or more decimal digits,
failing on any other character, on the empty string and on overflow. -/
def parseUInt (maxV : Nat) (s : List Nat) : Option Nat :=
  let s' := match s with
    | 43 :: rest => rest
    | _ => s
  match s' with
  | [] => none
  | _ =>
    match parseDigits 0 s' with
    | none => none
    | some v => if v ≤ maxV then some v else none

/-- The value the `TsvParse` accessor assigns to a line: decode the key column
as UTF-8 (empty string on failure), parse it (the type's default — `0` for any
unsigned integer type — on failure). -/
def tsvParseValue (maxV kc : Nat) (line : List Nat) : Nat :=
  (parseUInt maxV (utf8OrEmpty (tsvKey kc line))).getD 0

/-- `TsvParse::compare_key`: compare the parsed key column against a typed key. -/
def tsvParseCompareKey (maxV kc : Nat) (line : List Nat) (k : Nat) : Ordering :=
  cmp3 (tsvParseValue maxV kc line) k

/-- `TsvParse::compare_lines`: compare the parsed key columns of two lines. -/
def tsvParseCompareLines (maxV kc : Nat) (a b : List Nat) : Ordering :=
  cmp3 (tsvParseValue maxV kc a) (tsvParseValue maxV kc b)

/-- The construction-time stripping of trailing newline bytes performed by both
`SafeMemoryMap::from_str` and `SafeMemoryMap::from_string`. -/
def stripTrailingNL (l : List Nat) : List Nat :=
  (l.reverse.dropWhile (fun b => b == 10)).reverse

/-- The adjacent-pairs scan of `TextDb::is_sorted`, carrying the previous line. -/
def isSortedAux (cmpL : List Nat → List Nat → Ordering) : List Nat → List (List Nat) → Bool
  | _, [] => true
  | prev, l :: ls => if cmpL prev l = .gt then false else isSortedAux cmpL l ls

/-- `TextDb::is_sorted`: split the buffer on newlines and check that no
adjacent pair of lines compares `Greater` under the accessor's comparator. -/
def isSorted (cmpL : List Nat → List Nat → Ordering) (bytes : List Nat) : Bool :=
  match splitOn 10 bytes with
  | [] => true
  | p :: ls => isSortedAux cmpL p ls

/-- UTF-8 decoding as used by `keys`, `cols` and the `Line` accessors:
`some` of the bytes on success, `none` for a `Utf8Error`. -/
def decodeUtf8 (s : List Nat) : Option (List Nat) :=
  if utf8Valid s then some s else none

/-- `TextDb::keys`: the key column of every newline-separated line, each
independently decoded. -/
def keysF (bytes : List Nat) (kc : Nat) : List (Option (List Nat)) :=
  (splitOn 10 bytes).map (fun l => decodeUtf8 (tsvKey kc l))

/-- `TextDb::cols(i)`: column `i` of every newline-separated line, each
independently decoded. -/
def colsF (bytes : List Nat) (i : Nat) : List (Option (List Nat)) :=
  (splitOn 10 bytes).map (fun l => decodeUtf8 (col 9 l i))

/-- Rust slice `bytes[a..b]` (for in-range `a ≤ b`): take then drop. -/
def sliceL (l : List Nat) (a b : Nat) : List Nat :=
  (l.take b).drop a

/-- Rust `Iterator::position` on a byte list. -/
def findIdxO (p : Nat → Bool) : List Nat → Option Nat
  | [] => none
  | b :: l => if p b then some 0 else (findIdxO p l).map (· + 1)

/-- Rust `Iterator::rposition` on a byte list: index of the last match. -/
def rposO (p : Nat → Bool) (l : List Nat) : Option Nat :=
  (findIdxO p l.reverse).map (fun i => l.length - 1 - i)

/-- `TextDb::find_line_at(bytes, min, max, pos)`: resolve the line enclosing
`pos` inside `[min, max)`.  `none` models a panic: an out-of-range slice index
or a failed `assert!`. -/
def findLineAt (bytes : List Nat) (mn mx pos : Nat) : Option (Nat × Nat × List Nat) :=
  if pos < mn ∨ bytes.length < pos then none
  else
    let s := match rposO (fun b => b == 10) (sliceL bytes mn pos) with
      | some p => mn + p + 1
      | none => mn
    if mx < pos ∨ bytes.length < mx then none
    else
      let e := match findIdxO (fun b => b == 10) (sliceL bytes pos mx) with
        | some p => pos + p + 1
        | none => mx
      if s < mn ∨ mx < e ∨ e < s then none
      else
        let lineEnd := if e ≠ 0 ∧ bytes.getD (e - 1) 0 = 10 then e - 1 else e
        if lineEnd < s then none
        else some (s, e, sliceL bytes s lineEnd)

/-- Outcome of one iteration of the bisection loop: a panic, a `break` with the
final `(min, max)` range, or another iteration with an updated range. -/
inductive Step where
  | fail : Step
  | stop : Nat → Nat → Step
  | next : Nat → Nat → Step
deriving DecidableEq, Repr

/-- One iteration of the `loop` of `TextDb::get_matching_lines`, for the
comparator `cmp` (a line's ordering against the fixed search key). -/
def gmlStep (cmp : List Nat → Ordering) (bytes : List Nat) (mn mx : Nat) : Step :=
  match findLineAt bytes mn mx (mn + (mx - mn) / 2) with
  | none => .fail
  | some (s, e, line) =>
    match cmp line with
    | .lt => if mn = e then .fail else .next e mx
    | .gt => if mx = s then .fail else .next mn s
    | .eq =>
      match findLineAt bytes mn mx mn with
      | none => .fail
      | some (sa, ea, la) =>
        if sa ≠ mn then .fail
        else
          match cmp la with
          | .gt => .stop mn mn
          | .lt =>
            if mn = ea then .fail
            else if mx = 0 then .fail
            else
              match findLineAt bytes ea mx (mx - 1) with
              | none => .fail
              | some (sb, eb, lb) =>
                if eb ≠ mx then .fail
                else
                  match cmp lb with
                  | .lt => .stop ea ea
                  | .eq => .next ea mx
                  | .gt => if mx = sb then .fail else .next ea sb
          | .eq =>
            if mx = 0 then .fail
            else
              match findLineAt bytes mn mx (mx - 1) with
              | none => .fail
              | some (sb, eb, lb) =>
                if eb ≠ mx then .fail
                else
                  match cmp lb with
                  | .lt => .stop mn mn
                  | .eq => .stop mn (if mx ≠ 0 ∧ bytes.getD (mx - 1) 0 = 10 then mx - 1 else mx)
                  | .gt => if mx = sb then .fail else .next mn sb

/-- Fuel-indexed iteration of `gmlStep`.  The fuel is an artifact of the
embedding: `gmlLoopDecreases` below shows that each `.next` outcome strictly
shrinks `mx - mn`, so the fuel used by `gmlLoop` never runs out and `none`
arises exactly from a panic (`.fail`). -/
def gmlLoopF (cmp : List Nat → Ordering) (bytes : List Nat) : Nat → Nat → Nat → Option (Nat × Nat)
  | 0, _, _ => none
  | fuel + 1, mn, mx =>
    match gmlStep cmp bytes mn mx with
    | .fail => none
    | .stop a b => some (a, b)
    | .next a b => gmlLoopF cmp bytes fuel a b

/-- The `loop` of `TextDb::get_matching_lines`, from state `(mn, mx)` to the
final range, `none` modelling a panic. -/
def gmlLoop (cmp : List Nat → Ordering) (bytes : List Nat) (mn mx : Nat) : Option (Nat × Nat) :=
  gmlLoopF cmp bytes (mx - mn + 1) mn mx

/-- `TextDb::get_matching_lines`: run the bisection loop over the whole buffer
and split the final byte range on newlines; the resulting pieces are the
contents of the yielded `Line` views.  `none` models a panic. -/
def getMatchingLines (cmp : List Nat → Ordering) (bytes : List Nat) : Option (List (List Nat)) :=
  (gmlLoop cmp bytes 0 bytes.length).map (fun p => splitOn 10 (sliceL bytes p.1 p.2))

/-- The end-trimming applied by the success path (and implicitly defining which
window lines are fully contained in a search range `[mn, mx)`). -/
def trimE (bytes : List Nat) (m : Nat) : Nat :=
  if m ≠ 0 ∧ bytes.getD (m - 1) 0 = 10 then m - 1 else m

/-- The lines fully contained in the line-aligned search range `[mn, mx)`. -/
def winLines (bytes : List Nat) (mn mx : Nat) : List (List Nat) :=
  splitOn 10 (sliceL bytes mn (trimE bytes mx))

/-- An abstract accessor's `compare_key` for a fixed search key `k`: the key
column is extracted and interpreted by `keyf` into a linearly ordered type. -/
def keyCmp {K : Type*} [LinearOrder K] (keyf : List Nat → K) (k : K) (l : List Nat) : Ordering :=
  cmp3 (keyf l) k

/-- An abstract accessor's `compare_lines`. -/
def lineCmp {K : Type*} [LinearOrder K] (keyf : List Nat → K) (a b : List Nat) : Ordering :=
  cmp3 (keyf a) (keyf b)

/-- Invariant of the bisection loop on a sorted buffer containing the search
key `k`: the range `[mn, mx)` is nonempty and line-aligned, its window of
lines is sorted by key, contains a line with key `k`, and filtering it for key
`k` still yields `F`, the matching lines of the whole buffer. -/
def SearchInv {K : Type*} [LinearOrder K] (keyf : List Nat → K) (k : K)
    (bytes : List Nat) (F : List (List Nat)) (mn mx : Nat) : Prop :=
  mn < mx ∧ mx ≤ bytes.length
    ∧ (mn = 0 ∨ bytes.getD (mn - 1) 0 = 10)
    ∧ (mx = bytes.length ∨ bytes.getD (mx - 1) 0 = 10)
    ∧ List.Chain' (fun a b => keyf a ≤ keyf b) (winLines bytes mn mx)
    ∧ (∃ l ∈ winLines bytes mn mx, keyf l = k)
    ∧ (winLines bytes mn mx).filter (fun l => decide (keyf l = k)) = F

/-! ### Basic lemmas about the comparison and splitting primitives -/

theorem cmp3_eq_lt {K : Type*} [LinearOrder K] {a b : K} : cmp3 a b = .lt ↔ a < b := by
  unfold cmp3
  by_cases h1 : a < b
  · simp [h1]
  · rw [if_neg h1]
    by_cases h2 : a = b
    · rw [if_pos h2]
      constructor
      · intro h; cases h
      · intro h; exact absurd h h1
    · rw [if_neg h2]
      constructor
      · intro h; cases h
      · intro h; exact absurd h h1

theorem cmp3_eq_eq {K : Type*} [LinearOrder K] {a b : K} : cmp3 a b = .eq ↔ a = b := by
  unfold cmp3
  by_cases h1 : a < b
  · rw [if_pos h1]
    constructor
    · intro h; cases h
    · intro h; exact absurd h (ne_of_lt h1)
  · rw [if_neg h1]
    by_cases h2 : a = b
    · simp [h2]
    · rw [if_neg h2]
      constructor
      · intro h; cases h
      · intro h; exact absurd h h2

theorem cmp3_eq_gt {K : Type*} [LinearOrder K] {a b : K} : cmp3 a b = .gt ↔ b < a := by
  unfold cmp3
  by_cases h1 : a < b
  · rw [if_pos h1]
    constructor
    · intro h; cases h
    · intro h; exact absurd (lt_trans h1 h) (lt_irrefl a)
  · rw [if_neg h1]
    by_cases h2 : a = b
    · rw [if_pos h2]
      constructor
      · intro h; cases h
      · intro h; subst h2; exact absurd h (lt_irrefl a)
    · rw [if_neg h2]
      constructor
      · intro _; exact lt_of_le_of_ne (not_lt.mp h1) (Ne.symm h2)
      · intro _; rfl

theorem splitOn_ne_nil (sep : Nat) (l : List Nat) : splitOn sep l ≠ [] := by
  induction l with
  | nil => simp [splitOn]
  | cons b rest ih =>
    simp only [splitOn]
    split
    · simp
    · cases h : splitOn sep rest with
      | nil => exact absurd h ih
      | cons f fs => simp

theorem splitOn_append (sep : Nat) (l1 l2 : List Nat) :
    splitOn sep (l1 ++ sep :: l2) = splitOn sep l1 ++ splitOn sep l2 := by
  induction l1 with
  | nil => simp [splitOn]
  | cons b rest ih =>
    simp only [List.cons_append, splitOn]
    by_cases hb : b = sep
    · simp [hb, ih]
    · rw [if_neg hb, if_neg hb]
      simp only [List.append_eq]
      rw [ih]
      cases h : splitOn sep rest with
      | nil => exact absurd h (splitOn_ne_nil sep rest)
      | cons f fs => simp [h]

theorem splitOn_no_sep {sep : Nat} {l : List Nat} (h : sep ∉ l) : splitOn sep l = [l] := by
  induction l with
  | nil => rfl
  | cons b rest ih =>
    simp only [List.mem_cons, not_or] at h
    have hb : ¬ b = sep := fun hb => h.1 hb.symm
    simp only [splitOn, if_neg hb, ih h.2]

theorem splitOn_pieces_no_sep {sep : Nat} {l : List Nat} :
    ∀ p ∈ splitOn sep l, sep ∉ p := by
  induction l with
  | nil =>
    intro p hp
    simp only [splitOn, List.mem_singleton] at hp
    simp [hp]
  | cons b rest ih =>
    intro p hp
    simp only [splitOn] at hp
    by_cases hb : b = sep
    · rw [if_pos hb] at hp
      rcases List.mem_cons.mp hp with h1 | h1
      · simp [h1]
      · exact ih p h1
    · rw [if_neg hb] at hp
      cases h : splitOn sep rest with
      | nil => exact absurd h (splitOn_ne_nil sep rest)
      | cons f fs =>
        rw [h] at hp
        rcases List.mem_cons.mp hp with h1 | h1
        · subst h1
          have hf : sep ∉ f := ih f (by rw [h]; exact List.mem_cons_self f fs)
          intro hm
          rcases List.mem_cons.mp hm with h2 | h2
          · exact hb h2.symm
          · exact hf h2
        · exact ih p (by rw [h]; exact List.mem_cons_of_mem f h1)

theorem splitOn_inv_cons {sep : Nat} {u p : List Nat} {W : List (List Nat)}
    (h : splitOn sep u = p :: W) (hW : W ≠ []) :
    ∃ u', u = p ++ sep :: u' ∧ sep ∉ p ∧ splitOn sep u' = W := by
  induction u generalizing p W with
  | nil =>
    simp only [splitOn] at h
    injection h with h1 h2
    exact absurd h2.symm hW
  | cons b rest ih =>
    simp only [splitOn] at h
    by_cases hb : b = sep
    · rw [if_pos hb] at h
      injection h with h1 h2
      subst h1
      exact ⟨rest, by simp [hb], by simp, h2⟩
    · rw [if_neg hb] at h
      cases hr : splitOn sep rest with
      | nil => exact absurd hr (splitOn_ne_nil sep rest)
      | cons f fs =>
        rw [hr] at h
        injection h with h1 h2
        subst h1
        subst h2
        cases fs with
        | nil => exact absurd rfl hW
        | cons f1 fs1 =>
          obtain ⟨u', hu, hnp, hs⟩ := ih hr (by simp)
          refine ⟨u', by simp [hu], ?_, hs⟩
          intro hm
          rcases List.mem_cons.mp hm with h2 | h2
          · exact hb h2.symm
          · exact hnp h2

theorem splitOn_inv_single {sep : Nat} {u p : List Nat}
    (h : splitOn sep u = [p]) : u = p ∧ sep ∉ u := by
  induction u generalizing p with
  | nil =>
    simp only [splitOn] at h
    injection h with h1 _
    subst h1
    simp
  | cons b rest ih =>
    simp only [splitOn] at h
    by_cases hb : b = sep
    · rw [if_pos hb] at h
      injection h with h1 h2
      exact absurd h2 (splitOn_ne_nil sep rest)
    · rw [if_neg hb] at h
      cases hr : splitOn sep rest with
      | nil => exact absurd hr (splitOn_ne_nil sep rest)
      | cons f fs =>
        rw [hr] at h
        injection h with h1 h2
        subst h2
        obtain ⟨h3, h4⟩ := ih hr
        subst h3
        refine ⟨h1.symm ▸ rfl, ?_⟩
        intro hm
        rcases List.mem_cons.mp hm with h5 | h5
        · exact hb h5.symm
        · exact h4 h5

theorem splitOn_length (sep : Nat) (l : List Nat) :
    (splitOn sep l).length = l.count sep + 1 := by
  induction l with
  | nil => simp [splitOn]
  | cons b rest ih =>
    simp only [splitOn]
    by_cases hb : b = sep
    · subst hb
      simp [List.count_cons, ih]
    · rw [if_neg hb]
      cases hr : splitOn sep rest with
      | nil => exact absurd hr (splitOn_ne_nil sep rest)
      | cons f fs =>
        rw [hr] at ih
        simp only [List.length_cons] at ih ⊢
        simp [List.count_cons, hb, ih]

theorem colFields_out {fs : List (List Nat)} {i : Nat} (h : fs.length ≤ i) :
    colFields fs i = [] := by
  induction fs generalizing i with
  | nil => cases i <;> rfl
  | cons f fs ih =>
    cases i with
    | zero => simp at h
    | succ j => exact ih (by simpa using h)

theorem getD_last_eq_reverse_head {l : List Nat} (h : l ≠ []) :
    l.getD (l.length - 1) 0 = l.reverse.headD 0 := by
  obtain ⟨b, t, hbt⟩ := List.exists_cons_of_ne_nil (l := l.reverse) (by simpa using h)
  have hl : l = t.reverse ++ [b] := by
    have h2 := congrArg List.reverse hbt
    simpa using h2
  rw [hbt]
  conv_lhs => rw [hl]
  have hlen : (t.reverse ++ [b]).length - 1 = t.reverse.length := by simp
  rw [hlen, List.getD_append_right _ _ _ _ le_rfl]
  simp [List.getD]

theorem stripTrailingNL_append_newlines (l : List Nat) (n : Nat) :
    stripTrailingNL (l ++ List.replicate n 10) = stripTrailingNL l := by
  unfold stripTrailingNL
  rw [List.reverse_append, List.reverse_replicate]
  congr 1
  induction n with
  | zero => simp
  | succ m ih =>
    rw [List.replicate_succ, List.cons_append, List.dropWhile_cons]
    simpa using ih

theorem dropWhile_length_le (p : Nat → Bool) (l : List Nat) :
    (l.dropWhile p).length ≤ l.length := by
  induction l with
  | nil => simp
  | cons b t ih =>
    rw [List.dropWhile_cons]
    split
    · exact le_trans ih (by simp)
    · simp

theorem stripTrailingNL_fix_last {l : List Nat} (hfix : stripTrailingNL l = l)
    (hne : l ≠ []) : l.getD (l.length - 1) 0 ≠ 10 := by
  intro hlast
  rw [getD_last_eq_reverse_head hne] at hlast
  obtain ⟨b, t, hbt⟩ := List.exists_cons_of_ne_nil (l := l.reverse) (by simpa using hne)
  have hb : b = 10 := by rw [hbt] at hlast; simpa using hlast
  subst hb
  have hlen : (stripTrailingNL l).length ≤ t.length := by
    unfold stripTrailingNL
    rw [hbt]
    rw [List.dropWhile_cons]
    simp only [show ((10 : Nat) == 10) = true from rfl, if_pos rfl, List.length_reverse]
    exact dropWhile_length_le _ t
  rw [hfix] at hlen
  have hlen2 : l.length = t.length + 1 := by
    have h2 := congrArg List.length hbt
    simpa using h2
  omega

theorem isSortedAux_iff_chain (cmpL : List Nat → List Nat → Ordering) (p : List Nat)
    (ls : List (List Nat)) :
    isSortedAux cmpL p ls = true ↔ List.Chain (fun a b => ¬ cmpL a b = .gt) p ls := by
  induction ls generalizing p with
  | nil => simp [isSortedAux]
  | cons l ls ih =>
    simp only [isSortedAux, List.chain_cons]
    by_cases h : cmpL p l = .gt
    · simp [h]
    · simp [h, ih]

theorem isSorted_iff_chain' (cmpL : List Nat → List Nat → Ordering) (bytes : List Nat) :
    isSorted cmpL bytes = true
      ↔ List.Chain' (fun a b => ¬ cmpL a b = .gt) (splitOn 10 bytes) := by
  unfold isSorted
  cases h : splitOn 10 bytes with
  | nil => exact absurd h (splitOn_ne_nil 10 bytes)
  | cons p ls =>
    rw [isSortedAux_iff_chain]
    exact Iff.rfl

theorem isSorted_iff_chain'_le {K : Type*} [LinearOrder K] (keyf : List Nat → K)
    (bytes : List Nat) :
    isSorted (lineCmp keyf) bytes = true
      ↔ List.Chain' (fun a b => keyf a ≤ keyf b) (splitOn 10 bytes) := by
  rw [isSorted_iff_chain']
  constructor <;> intro h <;> refine List.Chain'.imp ?_ h <;> intro a b hab
  · rw [lineCmp, cmp3_eq_gt] at hab
    exact not_lt.mp hab
  · rw [lineCmp, cmp3_eq_gt]
    exact not_lt.mpr hab

/-! ### Lemmas about slices and the newline scans -/

theorem sliceL_nil_of_le {l : List Nat} {a b : Nat} (h : b ≤ a) : sliceL l a b = [] := by
  apply List.drop_eq_nil_of_le
  exact le_trans (List.length_take_le b l) h

theorem sliceL_length {l : List Nat} {a b : Nat} (_ : a ≤ b) (hb : b ≤ l.length) :
    (sliceL l a b).length = b - a := by
  simp [sliceL, List.length_drop, List.length_take, Nat.min_eq_left hb]

theorem sliceL_all (l : List Nat) : sliceL l 0 l.length = l := by
  simp [sliceL]

theorem sliceL_append {l : List Nat} {a b c : Nat} (hab : a ≤ b) (hbc : b ≤ c)
    (hc : c ≤ l.length) : sliceL l a c = sliceL l a b ++ sliceL l b c := by
  unfold sliceL
  have h1 : l.take c = l.take b ++ (l.take c).drop b := by
    conv_lhs => rw [← List.take_append_drop b (l.take c)]
    rw [List.take_take, Nat.min_eq_left hbc]
  conv_lhs => rw [h1]
  rw [List.drop_append_of_le_length (by rw [List.length_take]; omega)]

theorem sliceL_getD {l : List Nat} {a b i : Nat} (h1 : a + i < b) (h2 : b ≤ l.length) :
    (sliceL l a b).getD i 0 = l.getD (a + i) 0 := by
  unfold sliceL
  simp only [List.getD, List.get?_eq_getElem?]
  rw [List.getElem?_drop, List.getElem?_take_of_lt (by omega)]

theorem sliceL_singleton {l : List Nat} {b : Nat} (h : b < l.length) :
    sliceL l b (b + 1) = [l.getD b 0] := by
  unfold sliceL
  rw [List.take_succ]
  rw [List.drop_append_of_le_length (by rw [List.length_take]; omega)]
  rw [List.drop_eq_nil_of_le (by rw [List.length_take]; omega)]
  rw [List.getElem?_eq_getElem h]
  simp [List.getD, List.getElem?_eq_getElem h]

theorem findIdxO_none_iff {p : Nat → Bool} {l : List Nat} :
    findIdxO p l = none ↔ ∀ x ∈ l, p x = false := by
  induction l with
  | nil => simp [findIdxO]
  | cons b t ih =>
    simp only [findIdxO]
    by_cases hb : p b
    · simp [hb]
    · rw [if_neg hb, Option.map_eq_none', ih]
      constructor
      · intro h x hx
        rcases List.mem_cons.mp hx with h1 | h1
        · subst h1; simpa using hb
        · exact h x h1
      · intro h x hx
        exact h x (List.mem_cons_of_mem b hx)

theorem findIdxO_append_left {p : Nat → Bool} {l1 : List Nat} {i : Nat} (l2 : List Nat)
    (h : findIdxO p l1 = some i) : findIdxO p (l1 ++ l2) = some i := by
  induction l1 generalizing i with
  | nil => simp [findIdxO] at h
  | cons b t ih =>
    simp only [findIdxO] at h
    simp only [List.cons_append, findIdxO, List.append_eq]
    by_cases hb : p b
    · rw [if_pos hb] at h ⊢; exact h
    · rw [if_neg hb] at h ⊢
      cases hf : findIdxO p t with
      | none => rw [hf] at h; simp at h
      | some i2 =>
        rw [hf] at h
        simp only [Option.map_some', Option.some.injEq] at h
        rw [ih hf]
        simp [h]

theorem findIdxO_append_none {p : Nat → Bool} {l1 : List Nat} (l2 : List Nat)
    (h : ∀ x ∈ l1, p x = false) :
    findIdxO p (l1 ++ l2) = (findIdxO p l2).map (· + l1.length) := by
  induction l1 with
  | nil => cases hf : findIdxO p l2 <;> simp [hf]
  | cons b t ih =>
    have hb : p b = false := h b (List.mem_cons_self b t)
    simp only [List.cons_append, findIdxO, List.append_eq]
    rw [if_neg (by simp [hb])]
    rw [ih (fun y hy => h y (List.mem_cons_of_mem b hy))]
    cases hf : findIdxO p l2 <;> simp [hf]
    omega

theorem findIdxO_append_first {p : Nat → Bool} {l1 : List Nat} {x : Nat} (l2 : List Nat)
    (h1 : ∀ y ∈ l1, p y = false) (hx : p x = true) :
    findIdxO p (l1 ++ x :: l2) = some l1.length := by
  induction l1 with
  | nil => simp [findIdxO, hx]
  | cons b t ih =>
    have hb : p b = false := h1 b (List.mem_cons_self b t)
    simp only [List.cons_append, findIdxO, List.append_eq]
    rw [if_neg (by simp [hb])]
    rw [ih (fun y hy => h1 y (List.mem_cons_of_mem b hy))]
    simp

theorem findIdxO_some {p : Nat → Bool} {l : List Nat} {i : Nat} (h : findIdxO p l = some i) :
    i < l.length ∧ p (l.getD i 0) = true ∧ ∀ j, j < i → p (l.getD j 0) = false := by
  induction l generalizing i with
  | nil => simp [findIdxO] at h
  | cons b t ih =>
    simp only [findIdxO] at h
    by_cases hb : p b
    · rw [if_pos hb] at h
      injection h with h1
      subst h1
      exact ⟨by simp, by simpa using hb, fun j hj => absurd hj (Nat.not_lt_zero j)⟩
    · rw [if_neg hb] at h
      cases hf : findIdxO p t with
      | none => rw [hf] at h; simp at h
      | some i2 =>
        rw [hf] at h
        simp only [Option.map_some', Option.some.injEq] at h
        subst h
        obtain ⟨hl, hp, hj⟩ := ih hf
        refine ⟨by simp; omega, by simpa using hp, ?_⟩
        intro j hj2
        cases j with
        | zero => simpa using hb
        | succ j2 => simpa using hj j2 (by omega)

theorem getD_reverse {l : List Nat} {m : Nat} (h : m < l.length) :
    l.reverse.getD m 0 = l.getD (l.length - 1 - m) 0 := by
  have h1 : m < l.reverse.length := by simpa using h
  have h2 : l.length - 1 - m < l.length := by omega
  rw [List.getD_eq_getElem _ _ h1, List.getD_eq_getElem _ _ h2]
  exact List.getElem_reverse ..

theorem rposO_none_iff {p : Nat → Bool} {l : List Nat} :
    rposO p l = none ↔ ∀ x ∈ l, p x = false := by
  unfold rposO
  rw [Option.map_eq_none', findIdxO_none_iff]
  constructor <;> intro h x hx
  · exact h x (by simpa using hx)
  · exact h x (by simpa using hx)

theorem rposO_append_last {p : Nat → Bool} {l1 l2 : List Nat} {x : Nat}
    (hx : p x = true) (h2 : ∀ y ∈ l2, p y = false) :
    rposO p (l1 ++ x :: l2) = some l1.length := by
  unfold rposO
  rw [show (l1 ++ x :: l2).reverse = l2.reverse ++ x :: l1.reverse by simp]
  rw [findIdxO_append_first l1.reverse (fun y hy => h2 y (by simpa using hy)) hx]
  simp only [Option.map_some', Option.some.injEq]
  simp only [List.length_append, List.length_cons, List.length_reverse]
  omega

theorem rposO_some {p : Nat → Bool} {l : List Nat} {i : Nat} (h : rposO p l = some i) :
    i < l.length ∧ p (l.getD i 0) = true
      ∧ ∀ j, i < j → j < l.length → p (l.getD j 0) = false := by
  unfold rposO at h
  cases hf : findIdxO p l.reverse with
  | none => rw [hf] at h; simp at h
  | some i2 =>
    rw [hf] at h
    simp only [Option.map_some', Option.some.injEq] at h
    obtain ⟨hl, hp, hj⟩ := findIdxO_some hf
    rw [List.length_reverse] at hl
    subst h
    refine ⟨by omega, ?_, ?_⟩
    · rw [getD_reverse hl] at hp
      exact hp
    · intro j h1 h2
      have hm : l.length - 1 - j < i2 := by omega
      have := hj (l.length - 1 - j) hm
      rw [getD_reverse (by omega)] at this
      have hjj : l.length - 1 - (l.length - 1 - j) = j := by omega
      rw [hjj] at this
      exact this

theorem rposO_append_right {p : Nat → Bool} {l1 l2 : List Nat} {i : Nat}
    (h : rposO p l2 = some i) : rposO p (l1 ++ l2) = some (l1.length + i) := by
  unfold rposO at h ⊢
  cases hf : findIdxO p l2.reverse with
  | none => rw [hf] at h; simp at h
  | some i2 =>
    rw [hf] at h
    simp only [Option.map_some', Option.some.injEq] at h
    have hl : i2 < l2.length := by
      have h3 := (findIdxO_some hf).1
      simpa using h3
    rw [List.reverse_append]
    rw [findIdxO_append_left l1.reverse hf]
    simp only [Option.map_some', Option.some.injEq]
    simp only [List.length_append]
    omega

theorem rposO_append_none {p : Nat → Bool} {l1 l2 : List Nat}
    (h : ∀ x ∈ l2, p x = false) : rposO p (l1 ++ l2) = rposO p l1 := by
  unfold rposO
  rw [List.reverse_append]
  rw [findIdxO_append_none l1.reverse (fun x hx => h x (by simpa using hx))]
  cases hf : findIdxO p l1.reverse with
  | none => simp
  | some i2 =>
    have hl : i2 < l1.length := by
      have h3 := (findIdxO_some hf).1
      simpa using h3
    simp only [Option.map_some', Option.map_map, Option.some.injEq]
    simp only [Function.comp, List.length_append, List.length_reverse]
    omega

theorem sliceL_mem {l : List Nat} {a b x : Nat} (hb : b ≤ l.length) (hx : x ∈ sliceL l a b) :
    ∃ j, a ≤ j ∧ j < b ∧ l.getD j 0 = x := by
  rcases le_or_lt b a with hab | hab
  · rw [sliceL_nil_of_le hab] at hx
    simp at hx
  · obtain ⟨i, hi, hix⟩ := List.getElem_of_mem hx
    have hlen : (sliceL l a b).length = b - a := sliceL_length (le_of_lt hab) hb
    rw [hlen] at hi
    refine ⟨a + i, by omega, by omega, ?_⟩
    rw [← sliceL_getD (by omega) hb]
    rw [List.getD_eq_getElem _ _ (by omega)]
    exact hix

theorem findLineAt_bounds {bytes : List Nat} {mn mx pos s e : Nat} {l : List Nat}
    (h : findLineAt bytes mn mx pos = some (s, e, l)) :
    mn ≤ s ∧ s ≤ pos ∧ pos ≤ e ∧ e ≤ mx ∧ mn ≤ pos ∧ pos ≤ mx ∧ mx ≤ bytes.length := by
  unfold findLineAt at h
  by_cases h1 : pos < mn ∨ bytes.length < pos
  · rw [if_pos h1] at h; cases h
  rw [if_neg h1] at h
  by_cases h2 : mx < pos ∨ bytes.length < mx
  · rw [if_pos h2] at h; cases h
  rw [if_neg h2] at h
  cases hr : rposO (fun b => b == 10) (sliceL bytes mn pos) with
  | none =>
    rw [hr] at h
    simp only [] at h
    cases hf : findIdxO (fun b => b == 10) (sliceL bytes pos mx) with
    | none =>
      rw [hf] at h
      simp only [] at h
      by_cases h3 : mn < mn ∨ mx < mx ∨ mx < mn
      · rw [if_pos h3] at h; cases h
      rw [if_neg h3] at h
      by_cases h4 : mx ≠ 0 ∧ bytes.getD (mx - 1) 0 = 10
      · rw [if_pos h4] at h
        by_cases h5 : mx - 1 < mn
        · rw [if_pos h5] at h; cases h
        · rw [if_neg h5] at h
          simp only [Option.some.injEq, Prod.mk.injEq] at h
          obtain ⟨hs, he, hl⟩ := h
          have hs2 : mn = s := hs
          have he2 : mx = e := he
          omega
      · rw [if_neg h4] at h
        by_cases h5 : mx < mn
        · rw [if_pos h5] at h; cases h
        · rw [if_neg h5] at h
          simp only [Option.some.injEq, Prod.mk.injEq] at h
          obtain ⟨hs, he, hl⟩ := h
          have hs2 : mn = s := hs
          have he2 : mx = e := he
          omega
    | some p =>
      rw [hf] at h
      simp only [] at h
      by_cases h3 : mn < mn ∨ mx < pos + p + 1 ∨ pos + p + 1 < mn
      · rw [if_pos h3] at h; cases h
      rw [if_neg h3] at h
      by_cases h4 : pos + p + 1 ≠ 0 ∧ bytes.getD (pos + p + 1 - 1) 0 = 10
      · rw [if_pos h4] at h
        by_cases h5 : pos + p + 1 - 1 < mn
        · rw [if_pos h5] at h; cases h
        · rw [if_neg h5] at h
          simp only [Option.some.injEq, Prod.mk.injEq] at h
          obtain ⟨hs, he, hl⟩ := h
          have hs2 : mn = s := hs
          have he2 : pos + p + 1 = e := he
          omega
      · rw [if_neg h4] at h
        by_cases h5 : pos + p + 1 < mn
        · rw [if_pos h5] at h; cases h
        · rw [if_neg h5] at h
          simp only [Option.some.injEq, Prod.mk.injEq] at h
          obtain ⟨hs, he, hl⟩ := h
          have hs2 : mn = s := hs
          have he2 : pos + p + 1 = e := he
          omega
  | some p =>
    rw [hr] at h
    simp only [] at h
    have hp : p < pos - mn := by
      have h4 := (rposO_some hr).1
      rwa [sliceL_length (by omega) (by omega)] at h4
    cases hf : findIdxO (fun b => b == 10) (sliceL bytes pos mx) with
    | none =>
      rw [hf] at h
      simp only [] at h
      by_cases h3 : mn + p + 1 < mn ∨ mx < mx ∨ mx < mn + p + 1
      · rw [if_pos h3] at h; cases h
      rw [if_neg h3] at h
      by_cases h4 : mx ≠ 0 ∧ bytes.getD (mx - 1) 0 = 10
      · rw [if_pos h4] at h
        by_cases h5 : mx - 1 < mn + p + 1
        · rw [if_pos h5] at h; cases h
        · rw [if_neg h5] at h
          simp only [Option.some.injEq, Prod.mk.injEq] at h
          obtain ⟨hs, he, hl⟩ := h
          have hs2 : mn + p + 1 = s := hs
          have he2 : mx = e := he
          omega
      · rw [if_neg h4] at h
        by_cases h5 : mx < mn + p + 1
        · rw [if_pos h5] at h; cases h
        · rw [if_neg h5] at h
          simp only [Option.some.injEq, Prod.mk.injEq] at h
          obtain ⟨hs, he, hl⟩ := h
          have hs2 : mn + p + 1 = s := hs
          have he2 : mx = e := he
          omega
    | some p2 =>
      rw [hf] at h
      simp only [] at h
      by_cases h3 : mn + p + 1 < mn ∨ mx < pos + p2 + 1 ∨ pos + p2 + 1 < mn + p + 1
      · rw [if_pos h3] at h; cases h
      rw [if_neg h3] at h
      by_cases h4 : pos + p2 + 1 ≠ 0 ∧ bytes.getD (pos + p2 + 1 - 1) 0 = 10
      · rw [if_pos h4] at h
        by_cases h5 : pos + p2 + 1 - 1 < mn + p + 1
        · rw [if_pos h5] at h; cases h
        · rw [if_neg h5] at h
          simp only [Option.some.injEq, Prod.mk.injEq] at h
          obtain ⟨hs, he, hl⟩ := h
          have hs2 : mn + p + 1 = s := hs
          have he2 : pos + p2 + 1 = e := he
          omega
      · rw [if_neg h4] at h
        by_cases h5 : pos + p2 + 1 < mn + p + 1
        · rw [if_pos h5] at h; cases h
        · rw [if_neg h5] at h
          simp only [Option.some.injEq, Prod.mk.injEq] at h
          obtain ⟨hs, he, hl⟩ := h
          have hs2 : mn + p + 1 = s := hs
          have he2 : pos + p2 + 1 = e := he
          omega

theorem findLineAt_at_first_nl {bytes : List Nat} {mn mx pos q : Nat}
    (hmnpos : mn ≤ pos) (hposq : pos ≤ q) (hqmx : q < mx) (hmx : mx ≤ bytes.length)
    (hq10 : bytes.getD q 0 = 10)
    (hno : ∀ j, mn ≤ j → j < q → bytes.getD j 0 ≠ 10) :
    findLineAt bytes mn mx pos = some (mn, q + 1, sliceL bytes mn q) := by
  unfold findLineAt
  rw [if_neg (by omega)]
  have hr : rposO (fun b => b == 10) (sliceL bytes mn pos) = none := by
    rw [rposO_none_iff]
    intro x hx
    obtain ⟨j, hj1, hj2, hj3⟩ := sliceL_mem (by omega) hx
    subst hj3
    simp only [beq_eq_false_iff_ne, ne_eq]
    exact hno j hj1 (by omega)
  rw [hr]
  simp only []
  rw [if_neg (by omega)]
  have hf : findIdxO (fun b => b == 10) (sliceL bytes pos mx) = some (q - pos) := by
    have hdecomp : sliceL bytes pos mx = sliceL bytes pos q ++ 10 :: sliceL bytes (q + 1) mx := by
      rw [sliceL_append hposq (by omega) hmx]
      congr 1
      rw [sliceL_append (a := q) (b := q + 1) (c := mx) (by omega) (by omega) hmx]
      rw [sliceL_singleton (by omega), hq10]
      rfl
    rw [hdecomp]
    rw [findIdxO_append_first _ ?side rfl]
    case side =>
      intro y hy
      obtain ⟨j, hj1, hj2, hj3⟩ := sliceL_mem (by omega) hy
      subst hj3
      simp only [beq_eq_false_iff_ne, ne_eq]
      exact hno j (by omega) hj2
    congr 1
    exact sliceL_length hposq (by omega)
  rw [hf]
  simp only []
  rw [show pos + (q - pos) + 1 = q + 1 from by omega]
  rw [if_neg (by omega)]
  rw [show q + 1 - 1 = q from rfl]
  have hle : (if q + 1 ≠ 0 ∧ bytes.getD q 0 = 10 then q else q + 1) = q :=
    if_pos ⟨by omega, hq10⟩
  rw [hle]
  rw [if_neg (by omega)]

theorem findLineAt_no_nl {bytes : List Nat} {mn mx pos : Nat}
    (hmnpos : mn ≤ pos) (hposmx : pos < mx) (hmx : mx ≤ bytes.length)
    (hno : ∀ j, mn ≤ j → j < mx → bytes.getD j 0 ≠ 10) :
    findLineAt bytes mn mx pos = some (mn, mx, sliceL bytes mn mx) := by
  unfold findLineAt
  rw [if_neg (by omega)]
  have hr : rposO (fun b => b == 10) (sliceL bytes mn pos) = none := by
    rw [rposO_none_iff]
    intro x hx
    obtain ⟨j, hj1, hj2, hj3⟩ := sliceL_mem (by omega) hx
    subst hj3
    simp only [beq_eq_false_iff_ne, ne_eq]
    exact hno j hj1 (by omega)
  rw [hr]
  simp only []
  rw [if_neg (by omega)]
  have hf : findIdxO (fun b => b == 10) (sliceL bytes pos mx) = none := by
    rw [findIdxO_none_iff]
    intro x hx
    obtain ⟨j, hj1, hj2, hj3⟩ := sliceL_mem hmx hx
    subst hj3
    simp only [beq_eq_false_iff_ne, ne_eq]
    exact hno j (by omega) hj2
  rw [hf]
  simp only []
  rw [if_neg (by omega)]
  have hle : (if mx ≠ 0 ∧ bytes.getD (mx - 1) 0 = 10 then mx - 1 else mx) = mx :=
    if_neg (by
      intro hcontra
      exact hno (mx - 1) (by omega) (by omega) hcontra.2)
  rw [hle]
  rw [if_neg (by omega)]

theorem findLineAt_shrink {bytes : List Nat} {mn mx pos q : Nat}
    (hmnq : mn ≤ q) (hq10 : bytes.getD q 0 = 10) (hqpos : q < pos)
    (hposmx : pos ≤ mx) (hmx : mx ≤ bytes.length) :
    findLineAt bytes mn mx pos = findLineAt bytes (q + 1) mx pos := by
  unfold findLineAt
  rw [if_neg (by omega : ¬(pos < mn ∨ bytes.length < pos))]
  rw [if_neg (by omega : ¬(pos < q + 1 ∨ bytes.length < pos))]
  have hdecomp : sliceL bytes mn pos
      = (sliceL bytes mn q ++ [10]) ++ sliceL bytes (q + 1) pos := by
    rw [sliceL_append (a := mn) (b := q + 1) (c := pos) (by omega) (by omega) (by omega)]
    congr 1
    rw [sliceL_append (a := mn) (b := q) (c := q + 1) (by omega) (by omega) (by omega)]
    rw [sliceL_singleton (by omega), hq10]
  cases hri : rposO (fun b => b == 10) (sliceL bytes (q + 1) pos) with
  | some p =>
    have hro : rposO (fun b => b == 10) (sliceL bytes mn pos)
        = some ((sliceL bytes mn q ++ [10]).length + p) := by
      rw [hdecomp]
      exact rposO_append_right hri
    rw [hro]
    simp only []
    rw [List.length_append, sliceL_length (by omega) (by omega)]
    rw [show mn + (q - mn + [(10 : Nat)].length + p) + 1 = q + 1 + p + 1 from by
      simp only [List.length_cons, List.length_nil]
      omega]
    rw [if_neg (by omega : ¬(mx < pos ∨ bytes.length < mx))]
    rw [if_neg (by omega : ¬(mx < pos ∨ bytes.length < mx))]
    have hA : ¬(q + 1 + p + 1 < mn) := by omega
    have hB : ¬(q + 1 + p + 1 < q + 1) := by omega
    exact if_congr (or_congr (iff_of_false hA hB) Iff.rfl) rfl rfl
  | none =>
    have hro : rposO (fun b => b == 10) (sliceL bytes mn pos) = some (q - mn) := by
      rw [hdecomp]
      rw [rposO_append_none (by
        intro x hx
        have hiff := rposO_none_iff.mp hri
        exact hiff x hx)]
      rw [show sliceL bytes mn q ++ [10] = sliceL bytes mn q ++ 10 :: ([] : List Nat) from rfl]
      rw [rposO_append_last rfl (by intro y hy; cases hy)]
      rw [sliceL_length (by omega) (by omega)]
    rw [hro]
    simp only []
    rw [show mn + (q - mn) + 1 = q + 1 from by omega]
    rw [if_neg (by omega : ¬(mx < pos ∨ bytes.length < mx))]
    rw [if_neg (by omega : ¬(mx < pos ∨ bytes.length < mx))]
    have hA : ¬(q + 1 < mn) := by omega
    have hB : ¬(q + 1 < q + 1) := by omega
    exact if_congr (or_congr (iff_of_false hA hB) Iff.rfl) rfl rfl

theorem gmlStep_next {cmp : List Nat → Ordering} {bytes : List Nat} {mn mx a b : Nat}
    (h : gmlStep cmp bytes mn mx = .next a b) :
    b - a < mx - mn ∧ mn ≤ a ∧ b ≤ mx ∧ (mn < a ∨ b < mx) := by
  unfold gmlStep at h
  cases h1 : findLineAt bytes mn mx (mn + (mx - mn) / 2) with
  | none => rw [h1] at h; cases h
  | some t =>
    obtain ⟨s, e, line⟩ := t
    rw [h1] at h
    simp only [] at h
    have hb1 := findLineAt_bounds h1
    cases hc : cmp line with
    | lt =>
      rw [hc] at h
      simp only [] at h
      by_cases he : mn = e
      · rw [if_pos he] at h; cases h
      · rw [if_neg he] at h
        injection h with h2 h3
        subst h2
        subst h3
        refine ⟨by omega, by omega, by omega, by omega⟩
    | gt =>
      rw [hc] at h
      simp only [] at h
      by_cases hs : mx = s
      · rw [if_pos hs] at h; cases h
      · rw [if_neg hs] at h
        injection h with h2 h3
        subst h2
        subst h3
        refine ⟨by omega, by omega, by omega, by omega⟩
    | eq =>
      rw [hc] at h
      simp only [] at h
      cases h2 : findLineAt bytes mn mx mn with
      | none => rw [h2] at h; cases h
      | some t2 =>
        obtain ⟨sa, ea, la⟩ := t2
        rw [h2] at h
        simp only [] at h
        have hb2 := findLineAt_bounds h2
        by_cases hsa : sa ≠ mn
        · rw [if_pos hsa] at h; cases h
        · rw [if_neg hsa] at h
          cases hca : cmp la with
          | gt => rw [hca] at h; cases h
          | lt =>
            rw [hca] at h
            simp only [] at h
            by_cases hea : mn = ea
            · rw [if_pos hea] at h; cases h
            · rw [if_neg hea] at h
              by_cases hmx0 : mx = 0
              · rw [if_pos hmx0] at h; cases h
              · rw [if_neg hmx0] at h
                cases h3 : findLineAt bytes ea mx (mx - 1) with
                | none => rw [h3] at h; cases h
                | some t3 =>
                  obtain ⟨sb, eb, lb⟩ := t3
                  rw [h3] at h
                  simp only [] at h
                  have hb3 := findLineAt_bounds h3
                  by_cases heb : eb ≠ mx
                  · rw [if_pos heb] at h; cases h
                  · rw [if_neg heb] at h
                    cases hcb : cmp lb with
                    | lt => rw [hcb] at h; cases h
                    | eq =>
                      rw [hcb] at h
                      injection h with h4 h5
                      subst h4
                      subst h5
                      refine ⟨by omega, by omega, by omega, by omega⟩
                    | gt =>
                      rw [hcb] at h
                      simp only [] at h
                      by_cases hsb : mx = sb
                      · rw [if_pos hsb] at h; cases h
                      · rw [if_neg hsb] at h
                        injection h with h4 h5
                        subst h4
                        subst h5
                        refine ⟨by omega, by omega, by omega, by omega⟩
          | eq =>
            rw [hca] at h
            simp only [] at h
            by_cases hmx0 : mx = 0
            · rw [if_pos hmx0] at h; cases h
            · rw [if_neg hmx0] at h
              cases h3 : findLineAt bytes mn mx (mx - 1) with
              | none => rw [h3] at h; cases h
              | some t3 =>
                obtain ⟨sb, eb, lb⟩ := t3
                rw [h3] at h
                simp only [] at h
                have hb3 := findLineAt_bounds h3
                by_cases heb : eb ≠ mx
                · rw [if_pos heb] at h; cases h
                · rw [if_neg heb] at h
                  cases hcb : cmp lb with
                  | lt => rw [hcb] at h; cases h
                  | eq => rw [hcb] at h; cases h
                  | gt =>
                    rw [hcb] at h
                    simp only [] at h
                    by_cases hsb : mx = sb
                    · rw [if_pos hsb] at h; cases h
                    · rw [if_neg hsb] at h
                      injection h with h4 h5
                      subst h4
                      subst h5
                      refine ⟨by omega, by omega, by omega, by omega⟩

theorem gmlLoopF_congr {cmp : List Nat → Ordering} {bytes : List Nat} :
    ∀ f1 f2 mn mx : Nat, mx - mn < f1 → mx - mn < f2 →
    gmlLoopF cmp bytes f1 mn mx = gmlLoopF cmp bytes f2 mn mx := by
  intro f1
  induction f1 with
  | zero =>
    intro f2 mn mx h1 h2
    omega
  | succ f ih =>
    intro f2 mn mx h1 h2
    cases f2 with
    | zero => omega
    | succ f2b =>
      simp only [gmlLoopF]
      cases hs : gmlStep cmp bytes mn mx with
      | fail => rfl
      | stop a b => rfl
      | next a b =>
        have hd := (gmlStep_next hs).1
        have h3 : b - a < f := by omega
        have h4 : b - a < f2b := by omega
        exact ih f2b a b h3 h4

theorem gmlLoop_eq (cmp : List Nat → Ordering) (bytes : List Nat) (mn mx : Nat) :
    gmlLoop cmp bytes mn mx
      = match gmlStep cmp bytes mn mx with
        | .fail => none
        | .stop a b => some (a, b)
        | .next a b => gmlLoop cmp bytes a b := by
  unfold gmlLoop
  simp only [gmlLoopF]
  cases hs : gmlStep cmp bytes mn mx with
  | fail => rfl
  | stop a b => rfl
  | next a b =>
    have hd := (gmlStep_next hs).1
    have h3 : b - a < mx - mn := by omega
    have h4 : b - a < b - a + 1 := by omega
    exact gmlLoopF_congr _ _ _ _ h3 h4

theorem sliceL_take {l : List Nat} {a b c : Nat} (hab : a ≤ b) (hbc : b ≤ c)
    (hc : c ≤ l.length) : sliceL l a b = (sliceL l a c).take (b - a) := by
  rw [sliceL_append hab hbc hc]
  rw [← sliceL_length hab (le_trans hbc hc)]
  rw [List.take_left]

theorem sliceL_drop {l : List Nat} {a b c : Nat} (hab : a ≤ b) (hbc : b ≤ c)
    (hc : c ≤ l.length) : sliceL l b c = (sliceL l a c).drop (b - a) := by
  rw [sliceL_append hab hbc hc]
  rw [← sliceL_length hab (le_trans hbc hc)]
  rw [List.drop_left]

theorem sliceL_getD_mem {l : List Nat} {a b j : Nat} (h1 : a ≤ j) (h2 : j < b)
    (h3 : b ≤ l.length) : l.getD j 0 ∈ sliceL l a b := by
  have h4 : (sliceL l a b).getD (j - a) 0 = l.getD (a + (j - a)) 0 :=
    sliceL_getD (by omega) h3
  rw [show a + (j - a) = j from by omega] at h4
  have h5 : j - a < (sliceL l a b).length := by
    rw [sliceL_length (by omega) h3]
    omega
  rw [← h4, List.getD_eq_getElem _ _ h5]
  exact List.getElem_mem h5

theorem no_nl_of_slice {bytes : List Nat} {a b : Nat} (hb : b ≤ bytes.length)
    (h : 10 ∉ sliceL bytes a b) :
    ∀ j, a ≤ j → j < b → bytes.getD j 0 ≠ 10 := by
  intro j hj1 hj2 hj3
  exact h (hj3 ▸ sliceL_getD_mem hj1 hj2 hb)

theorem trimE_le (bytes : List Nat) (mx : Nat) : trimE bytes mx ≤ mx := by
  unfold trimE
  split <;> omega

theorem trimE_lt_cases {bytes : List Nat} {mx : Nat} (h : trimE bytes mx < mx) :
    trimE bytes mx = mx - 1 ∧ mx ≠ 0 ∧ bytes.getD (mx - 1) 0 = 10 := by
  unfold trimE at h ⊢
  by_cases hc : mx ≠ 0 ∧ bytes.getD (mx - 1) 0 = 10
  · rw [if_pos hc] at h ⊢
    exact ⟨rfl, hc.1, hc.2⟩
  · rw [if_neg hc] at h
    omega

theorem trimE_eq_cases {bytes : List Nat} {mx : Nat} (h : trimE bytes mx = mx)
    (h0 : mx ≠ 0) : bytes.getD (mx - 1) 0 ≠ 10 := by
  unfold trimE at h
  by_cases hc : mx ≠ 0 ∧ bytes.getD (mx - 1) 0 = 10
  · rw [if_pos hc] at h
    omega
  · rw [if_neg hc] at h
    intro hc2
    exact hc ⟨h0, hc2⟩

theorem probe_decomp (bytes : List Nat) (mx T : Nat) (hmxlen : mx ≤ bytes.length)
    (hT : T = trimE bytes mx) :
    ∀ (W : List (List Nat)) (mn pos : Nat),
      splitOn 10 (sliceL bytes mn T) = W →
      mn ≤ T → mn ≤ pos → pos < mx →
      ∃ A l B s e, W = A ++ l :: B
        ∧ findLineAt bytes mn mx pos = some (s, e, l)
        ∧ mn ≤ s ∧ s ≤ pos ∧ pos < e ∧ e ≤ mx
        ∧ (A = [] → s = mn)
        ∧ (A ≠ [] → bytes.getD (s - 1) 0 = 10 ∧ mn < s ∧ s ≤ T
            ∧ splitOn 10 (sliceL bytes mn (s - 1)) = A)
        ∧ (B = [] → e = mx)
        ∧ (B ≠ [] → bytes.getD (e - 1) 0 = 10 ∧ e < mx ∧ e ≤ T
            ∧ splitOn 10 (sliceL bytes e T) = B) := by
  have hTle : T ≤ mx := hT ▸ trimE_le bytes mx
  intro W
  induction W with
  | nil =>
    intro mn pos hW hmnT hmnpos hposmx
    exact absurd hW (splitOn_ne_nil _ _)
  | cons p W' ih =>
    intro mn pos hW hmnT hmnpos hposmx
    cases W' with
    | nil =>
      obtain ⟨hup, hnp⟩ := splitOn_inv_single hW
      have hno : ∀ j, mn ≤ j → j < T → bytes.getD j 0 ≠ 10 :=
        no_nl_of_slice (by omega) hnp
      by_cases hTmx : T < mx
      · obtain ⟨hT1, hT0, hT10⟩ := trimE_lt_cases (hT ▸ hTmx)
        have hTeq : T = mx - 1 := by rw [hT, hT1]
        have h10 : bytes.getD T 0 = 10 := by rw [hTeq]; exact hT10
        have hposT : pos ≤ T := by omega
        have hres := findLineAt_at_first_nl hmnpos hposT hTmx hmxlen h10 hno
        rw [hup] at hres
        have hemx : T + 1 = mx := by omega
        have hpe : pos < T + 1 := by omega
        have hele : T + 1 ≤ mx := by omega
        exact ⟨[], p, [], mn, T + 1, rfl, hres, le_rfl, hmnpos, hpe, hele,
          fun _ => rfl, fun hA => absurd rfl hA, fun _ => hemx,
          fun hB => absurd rfl hB⟩
      · have hTmx2 : T = mx := by omega
        have hno2 : ∀ j, mn ≤ j → j < mx → bytes.getD j 0 ≠ 10 :=
          fun j h1 h2 => hno j h1 (by omega)
        have hres := findLineAt_no_nl hmnpos hposmx hmxlen hno2
        have hup2 : sliceL bytes mn mx = p := by rw [← hTmx2]; exact hup
        rw [hup2] at hres
        exact ⟨[], p, [], mn, mx, rfl, hres, le_rfl, hmnpos, hposmx, le_rfl,
          fun _ => rfl, fun hA => absurd rfl hA, fun _ => rfl,
          fun hB => absurd rfl hB⟩
    | cons p1 W2 =>
      obtain ⟨u', hu, hnp, hsu⟩ := splitOn_inv_cons hW (by simp)
      have hlen2 : T - mn = p.length + 1 + u'.length := by
        have h2 := congrArg List.length hu
        rw [sliceL_length hmnT (by omega)] at h2
        simp only [List.length_append, List.length_cons] at h2
        omega
      have hqT : mn + p.length < T := by omega
      have hq10 : bytes.getD (mn + p.length) 0 = 10 := by
        have h3 : (sliceL bytes mn T).getD p.length 0 = bytes.getD (mn + p.length) 0 :=
          sliceL_getD (by omega) (by omega)
        rw [hu, List.getD_append_right _ _ _ _ le_rfl] at h3
        simp only [Nat.sub_self, List.getD_cons_zero] at h3
        exact h3.symm
      have hp_eq : sliceL bytes mn (mn + p.length) = p := by
        rw [sliceL_take (a := mn) (b := mn + p.length) (c := T) (by omega) (by omega) (by omega)]
        rw [hu, show mn + p.length - mn = p.length from by omega]
        exact List.take_left p (10 :: u')
      have hq1_eq : sliceL bytes mn (mn + p.length + 1) = p ++ [10] := by
        rw [sliceL_append (a := mn) (b := mn + p.length) (c := mn + p.length + 1)
          (by omega) (by omega) (by omega)]
        rw [hp_eq, sliceL_singleton (by omega), hq10]
      have hu'_eq : sliceL bytes (mn + p.length + 1) T = u' := by
        rw [sliceL_drop (a := mn) (b := mn + p.length + 1) (c := T) (by omega) (by omega)
          (by omega)]
        rw [hu, show mn + p.length + 1 - mn = p.length + 1 from by omega]
        rw [show p ++ 10 :: u' = (p ++ [10]) ++ u' from by simp]
        rw [show p.length + 1 = (p ++ [10]).length from by simp]
        exact List.drop_left _ _
      have hnoq : ∀ j, mn ≤ j → j < mn + p.length → bytes.getD j 0 ≠ 10 := by
        intro j h1 h2 h10
        have h3 : (sliceL bytes mn (mn + p.length)).getD (j - mn) 0 = bytes.getD j 0 := by
          rw [sliceL_getD (by omega) (by omega), show mn + (j - mn) = j from by omega]
        rw [hp_eq] at h3
        have h4 : j - mn < p.length := by omega
        have h5 : (10 : Nat) ∈ p := by
          rw [← h10, ← h3, List.getD_eq_getElem _ _ h4]
          exact List.getElem_mem h4
        exact hnp h5
      have hqmx : mn + p.length + 1 < mx := by
        by_cases hTmx : T < mx
        · omega
        · have hTeq2 : T = mx := by omega
          have hmx0 : mx ≠ 0 := by omega
          have hne := trimE_eq_cases (show trimE bytes mx = mx from by rw [← hT]; exact hTeq2) hmx0
          by_cases hqq : mn + p.length = mx - 1
          · exact absurd (hqq ▸ hq10) hne
          · omega
      by_cases hposq : pos ≤ mn + p.length
      · have hres := findLineAt_at_first_nl hmnpos hposq (by omega) hmxlen hq10 hnoq
        rw [hp_eq] at hres
        have hc1 : pos < mn + p.length + 1 := by omega
        have hc2 : mn + p.length + 1 ≤ mx := by omega
        have hc3 : bytes.getD (mn + p.length + 1 - 1) 0 = 10 := by
          rw [show mn + p.length + 1 - 1 = mn + p.length from by omega]
          exact hq10
        have hc4 : mn + p.length + 1 ≤ T := by omega
        have hc5 : splitOn 10 (sliceL bytes (mn + p.length + 1) T) = p1 :: W2 := by
          rw [hu'_eq]
          exact hsu
        refine ⟨[], p, p1 :: W2, mn, mn + p.length + 1, rfl, hres, le_rfl, hmnpos, hc1, hc2,
          fun _ => rfl, fun hA => absurd rfl hA, fun hB => by simp at hB,
          fun _ => ⟨hc3, hqmx, hc4, hc5⟩⟩
      · have hmnq : mn ≤ mn + p.length := by omega
        have hqpos2 : mn + p.length < pos := by omega
        have hposmx2 : pos ≤ mx := by omega
        have hshr := findLineAt_shrink hmnq hq10 hqpos2 hposmx2 hmxlen
        have hihT : mn + p.length + 1 ≤ T := by omega
        have hihpos : mn + p.length + 1 ≤ pos := by omega
        have hsu2 : splitOn 10 (sliceL bytes (mn + p.length + 1) T) = p1 :: W2 := by
          rw [hu'_eq]
          exact hsu
        obtain ⟨A', l, B', s, e, hW', hfind', hs1, hs2, he1, he2, hA'nil, hA'c, hB'nil, hB'c⟩ :=
          ih (mn + p.length + 1) pos hsu2 hihT hihpos hposmx
        have hWdec : p :: p1 :: W2 = (p :: A') ++ l :: B' := by
          rw [show p1 :: W2 = A' ++ l :: B' from hW']
          rfl
        have hfind2 : findLineAt bytes mn mx pos = some (s, e, l) := by
          rw [hshr]
          exact hfind'
        have hmns : mn ≤ s := by omega
        have hAc : (p :: A') ≠ [] → bytes.getD (s - 1) 0 = 10 ∧ mn < s ∧ s ≤ T
            ∧ splitOn 10 (sliceL bytes mn (s - 1)) = p :: A' := by
          intro _
          by_cases hA' : A' = []
          · subst hA'
            have hs_eq : s = mn + p.length + 1 := hA'nil rfl
            have hg : bytes.getD (s - 1) 0 = 10 := by
              rw [hs_eq, show mn + p.length + 1 - 1 = mn + p.length from by omega]
              exact hq10
            have hsT : s ≤ T := by omega
            have hsp2 : splitOn 10 (sliceL bytes mn (s - 1)) = [p] := by
              rw [hs_eq, show mn + p.length + 1 - 1 = mn + p.length from by omega]
              rw [hp_eq]
              exact splitOn_no_sep hnp
            exact ⟨hg, by omega, hsT, hsp2⟩
          · obtain ⟨hg, hlt, hle, hsp⟩ := hA'c hA'
            have hslen : s - 1 ≤ bytes.length := by omega
            have hdec : sliceL bytes mn (s - 1)
                = (p ++ [10]) ++ sliceL bytes (mn + p.length + 1) (s - 1) := by
              rw [← hq1_eq]
              exact sliceL_append (by omega) (by omega) hslen
            have hsp2 : splitOn 10 (sliceL bytes mn (s - 1)) = p :: A' := by
              rw [hdec, show (p ++ [10]) ++ sliceL bytes (mn + p.length + 1) (s - 1)
                  = p ++ 10 :: sliceL bytes (mn + p.length + 1) (s - 1) from by simp]
              rw [splitOn_append, splitOn_no_sep hnp, hsp]
              rfl
            exact ⟨hg, by omega, hle, hsp2⟩
        exact ⟨p :: A', l, B', s, e, hWdec, hfind2, hmns, hs2, he1, he2,
          fun hA => by simp at hA, hAc, hB'nil, hB'c⟩

theorem trimE_ge (bytes : List Nat) (mx : Nat) : mx - 1 ≤ trimE bytes mx := by
  unfold trimE
  split <;> omega

theorem trimE_of_nl {bytes : List Nat} {m : Nat} (h0 : m ≠ 0)
    (h10 : bytes.getD (m - 1) 0 = 10) : trimE bytes m = m - 1 := by
  unfold trimE
  rw [if_pos ⟨h0, h10⟩]

theorem chain'_decomp {K : Type*} [LinearOrder K] (keyf : List Nat → K)
    (A B : List (List Nat)) (l : List Nat)
    (h : List.Chain' (fun a b => keyf a ≤ keyf b) (A ++ l :: B)) :
    List.Chain' (fun a b => keyf a ≤ keyf b) A
    ∧ List.Chain' (fun a b => keyf a ≤ keyf b) (l :: B)
    ∧ (∀ x ∈ A, keyf x ≤ keyf l)
    ∧ (∀ y ∈ B, keyf l ≤ keyf y) := by
  haveI : IsTrans (List Nat) (fun a b => keyf a ≤ keyf b) := ⟨fun a b c => le_trans⟩
  rw [List.chain'_iff_pairwise] at h
  obtain ⟨hA, hlB, hrel⟩ := List.pairwise_append.mp h
  refine ⟨List.chain'_iff_pairwise.mpr hA, List.chain'_iff_pairwise.mpr hlB,
    fun x hx => hrel x hx l (List.mem_cons_self l B), fun y hy => ?_⟩
  exact (List.pairwise_cons.mp hlB).1 y hy

theorem filter_key_nil {K : Type*} [LinearOrder K] {keyf : List Nat → K} {k : K}
    {A : List (List Nat)} (h : ∀ x ∈ A, keyf x ≠ k) :
    A.filter (fun l => decide (keyf l = k)) = [] := by
  rw [List.filter_eq_nil]
  intro x hx
  simp [h x hx]

theorem filter_key_all {K : Type*} [LinearOrder K] {keyf : List Nat → K} {k : K}
    {A : List (List Nat)} (h : ∀ x ∈ A, keyf x = k) :
    A.filter (fun l => decide (keyf l = k)) = A := by
  rw [List.filter_eq_self]
  intro x hx
  simp [h x hx]

theorem gmlLoop_inv {K : Type*} [LinearOrder K] (keyf : List Nat → K) (k : K)
    (bytes : List Nat) (F : List (List Nat)) :
    ∀ (n mn mx : Nat), mx - mn ≤ n →
      SearchInv keyf k bytes F mn mx →
      ∃ a b, gmlLoop (keyCmp keyf k) bytes mn mx = some (a, b)
        ∧ splitOn 10 (sliceL bytes a b) = F := by
  intro n
  induction n using Nat.strong_induction_on with
  | _ n ih =>
    intro mn mx hn hInv
    obtain ⟨hmn, hmxlen, halignL, halignR, hsorted, hpresent, hfilter⟩ := hInv
    have hmnT : mn ≤ trimE bytes mx := by
      have h1 := trimE_ge bytes mx
      omega
    have hmidlo : mn ≤ mn + (mx - mn) / 2 := by omega
    have hmidhi : mn + (mx - mn) / 2 < mx := by omega
    obtain ⟨A, l, B, s, e, hW, hfind, hs1, hs2, he1, he2, hAnil, hAc, hBnil, hBc⟩ :=
      probe_decomp bytes mx (trimE bytes mx) hmxlen rfl (winLines bytes mn mx)
        mn (mn + (mx - mn) / 2) rfl hmnT hmidlo hmidhi
    have hsortedW := hsorted
    have hfilterW : (winLines bytes mn mx).filter (fun l => decide (keyf l = k)) = F := hfilter
    rw [hW] at hsorted hpresent hfilter
    obtain ⟨hchA, hchlB, hleA, hleB⟩ := chain'_decomp keyf A B l hsorted
    rcases lt_trichotomy (keyf l) k with hlt | heq | hgt
    · -- mid line is Less: advance min to e
      have hcmp : keyCmp keyf k l = .lt := cmp3_eq_lt.mpr hlt
      have hBne : B ≠ [] := by
        obtain ⟨lk, hlkmem, hlkkey⟩ := hpresent
        rcases List.mem_append.mp hlkmem with hmem | hmem
        · have := hleA lk hmem
          rw [hlkkey] at this
          exact absurd (lt_of_le_of_lt this hlt) (lt_irrefl k)
        · rcases List.mem_cons.mp hmem with hmem2 | hmem2
          · subst hmem2
            exact absurd (hlkkey ▸ hlt) (lt_irrefl k)
          · intro hBe
            rw [hBe] at hmem2
            cases hmem2
      obtain ⟨hBg, hBlt, hBT, hBsp⟩ := hBc hBne
      have hne2 : mn ≠ e := by omega
      have hstep : gmlStep (keyCmp keyf k) bytes mn mx = .next e mx := by
        unfold gmlStep
        rw [hfind]
        simp only []
        rw [hcmp]
        simp only []
        rw [if_neg hne2]
      have hInv2 : SearchInv keyf k bytes F e mx := by
        refine ⟨hBlt, hmxlen, Or.inr hBg, halignR, ?_, ?_, ?_⟩
        · show List.Chain' _ (winLines bytes e mx)
          unfold winLines
          rw [hBsp]
          exact List.Chain'.tail hchlB
        · show ∃ l2 ∈ winLines bytes e mx, keyf l2 = k
          unfold winLines
          rw [hBsp]
          obtain ⟨lk, hlkmem, hlkkey⟩ := hpresent
          refine ⟨lk, ?_, hlkkey⟩
          rcases List.mem_append.mp hlkmem with hmem | hmem
          · have := hleA lk hmem
            rw [hlkkey] at this
            exact absurd (lt_of_le_of_lt this hlt) (lt_irrefl k)
          · rcases List.mem_cons.mp hmem with hmem2 | hmem2
            · subst hmem2
              exact absurd (hlkkey ▸ hlt) (lt_irrefl k)
            · exact hmem2
        · show (winLines bytes e mx).filter _ = F
          unfold winLines
          rw [hBsp]
          have hfA : A.filter (fun x => decide (keyf x = k)) = [] := by
            apply filter_key_nil
            intro x hx hc
            have := hleA x hx
            rw [hc] at this
            exact absurd (lt_of_le_of_lt this hlt) (lt_irrefl k)
          have hfl : (l :: B).filter (fun x => decide (keyf x = k))
              = B.filter (fun x => decide (keyf x = k)) := by
            rw [List.filter_cons]
            rw [if_neg (by simp [ne_of_lt hlt])]
          rw [← hfilter, List.filter_append, hfA, hfl, List.nil_append]
      have hmeas : mx - e < n := by omega
      obtain ⟨a, b, hloop, hsp⟩ := ih (mx - e) hmeas e mx le_rfl hInv2
      refine ⟨a, b, ?_, hsp⟩
      rw [gmlLoop_eq, hstep]
      exact hloop
    · -- mid line is Equal
      have hcmp : keyCmp keyf k l = .eq := cmp3_eq_eq.mpr heq
      have hposmn : mn < mx := hmn
      obtain ⟨A2, l2, B2, s2, e2, hW2, hfind2, hs21, hs22, he21, he22, hA2nil, hA2c, hB2nil, hB2c⟩ :=
        probe_decomp bytes mx (trimE bytes mx) hmxlen rfl (winLines bytes mn mx)
          mn mn rfl hmnT le_rfl hmn
      have hA2e : A2 = [] := by
        by_cases hA2 : A2 = []
        · exact hA2
        · obtain ⟨_, hlt2, _, _⟩ := hA2c hA2
          omega
      have hs2mn : s2 = mn := hA2nil hA2e
      have hW2' : winLines bytes mn mx = l2 :: B2 := by
        rw [hW2, hA2e]
        rfl
      have hch2 : List.Chain' (fun a b => keyf a ≤ keyf b) (l2 :: B2) := by
        rw [← hW2']
        exact hsortedW
      have hleB2 : ∀ y ∈ B2, keyf l2 ≤ keyf y :=
        (chain'_decomp keyf [] B2 l2 (by simpa using hch2)).2.2.2
      have hlmem : l ∈ l2 :: B2 := by
        rw [← hW2', hW]
        exact List.mem_append_right A (List.mem_cons_self l B)
      have hmx0 : mx ≠ 0 := by omega
      have hpos3a : mn ≤ mx - 1 := by omega
      have hpos3b : mx - 1 < mx := by omega
      rcases lt_trichotomy (keyf l2) k with hl2lt | hl2eq | hl2gt
      · -- (a) probe is Less: min advances to e2 before the (b) probe
        have hcmp2 : keyCmp keyf k l2 = .lt := cmp3_eq_lt.mpr hl2lt
        have hne2 : mn ≠ e2 := by omega
        have hB2ne : B2 ≠ [] := by
          rcases List.mem_cons.mp hlmem with hx | hx
          · rw [← hx] at hl2lt
            rw [heq] at hl2lt
            exact absurd hl2lt (lt_irrefl k)
          · intro hB2e
            rw [hB2e] at hx
            cases hx
        obtain ⟨hg2, hlt2mx, hT2, hsp2⟩ := hB2c hB2ne
        have hlB2 : l ∈ B2 := by
          rcases List.mem_cons.mp hlmem with hx | hx
          · rw [← hx] at hl2lt
            rw [heq] at hl2lt
            exact absurd hl2lt (lt_irrefl k)
          · exact hx
        have hchB2 : List.Chain' (fun a b => keyf a ≤ keyf b) B2 :=
          List.Chain'.tail hch2
        have hpos3c : e2 ≤ mx - 1 := by omega
        obtain ⟨A3, l3, B3, s3, e3, hW3, hfind3, hs31, hs32, he31, he32, hA3nil, hA3c, hB3nil, hB3c⟩ :=
          probe_decomp bytes mx (trimE bytes mx) hmxlen rfl B2 e2 (mx - 1) hsp2 hT2 hpos3c hpos3b
        have hB3e : B3 = [] := by
          by_cases hB3 : B3 = []
          · exact hB3
          · obtain ⟨_, hlt3, _, _⟩ := hB3c hB3
            omega
        have he3mx : e3 = mx := hB3nil hB3e
        have hW3' : B2 = A3 ++ [l3] := by
          rw [hW3, hB3e]
        obtain ⟨hchA3, hchl3, hleA3, _⟩ :=
          chain'_decomp keyf A3 [] l3 (by rw [← List.append_nil (A3 ++ [l3]), List.append_assoc] at hW3' ⊢; rw [← hW3']; simpa using hchB2)
        rcases lt_trichotomy (keyf l3) k with hl3lt | hl3eq | hl3gt
        · -- last line Less than key: impossible in a sorted window containing the key
          exfalso
          rw [hW3'] at hlB2
          rcases List.mem_append.mp hlB2 with hx | hx
          · have h5 := hleA3 l hx
            rw [heq] at h5
            exact absurd (lt_of_le_of_lt h5 hl3lt) (lt_irrefl k)
          · rcases List.mem_cons.mp hx with hx2 | hx2
            · rw [hx2] at heq
              rw [heq] at hl3lt
              exact absurd hl3lt (lt_irrefl k)
            · cases hx2
        · -- last line Equal, but min was advanced: continue with (e2, mx)
          have hcmp3 : keyCmp keyf k l3 = .eq := cmp3_eq_eq.mpr hl3eq
          have hstep : gmlStep (keyCmp keyf k) bytes mn mx = .next e2 mx := by
            unfold gmlStep
            rw [hfind]
            simp only []
            rw [hcmp]
            simp only []
            rw [hfind2]
            simp only []
            rw [if_neg (show ¬(s2 ≠ mn) from fun hcon => hcon hs2mn)]
            rw [hcmp2]
            simp only []
            rw [if_neg hne2, if_neg hmx0]
            rw [hfind3]
            simp only []
            rw [if_neg (show ¬(e3 ≠ mx) from fun hcon => hcon he3mx)]
            rw [hcmp3]
          have hInv2 : SearchInv keyf k bytes F e2 mx := by
            refine ⟨hlt2mx, hmxlen, Or.inr hg2, halignR, ?_, ?_, ?_⟩
            · show List.Chain' _ (winLines bytes e2 mx)
              unfold winLines
              rw [hsp2]
              exact hchB2
            · show ∃ x ∈ winLines bytes e2 mx, keyf x = k
              unfold winLines
              rw [hsp2]
              exact ⟨l, hlB2, heq⟩
            · show (winLines bytes e2 mx).filter _ = F
              unfold winLines
              rw [hsp2]
              have hfl2 : (l2 :: B2).filter (fun x => decide (keyf x = k))
                  = B2.filter (fun x => decide (keyf x = k)) := by
                rw [List.filter_cons]
                rw [if_neg (by simp [ne_of_lt hl2lt])]
              rw [← hfilterW, hW2', hfl2]
          have hmeas : mx - e2 < n := by omega
          obtain ⟨a, b, hloop, hsp⟩ := ih (mx - e2) hmeas e2 mx le_rfl hInv2
          refine ⟨a, b, ?_, hsp⟩
          rw [gmlLoop_eq, hstep]
          exact hloop
        · -- last line Greater: shrink max to s3, min already advanced to e2
          have hcmp3 : keyCmp keyf k l3 = .gt := cmp3_eq_gt.mpr hl3gt
          have hA3ne : A3 ≠ [] := by
            intro hA3e
            rw [hA3e] at hW3'
            rw [hW3'] at hlB2
            rcases List.mem_cons.mp hlB2 with hx | hx
            · rw [hx] at heq
              rw [heq] at hl3gt
              exact absurd hl3gt (lt_irrefl k)
            · cases hx
          obtain ⟨hg3, hlt3, hT3, hsp3⟩ := hA3c hA3ne
          have hlA3 : l ∈ A3 := by
            rw [hW3'] at hlB2
            rcases List.mem_append.mp hlB2 with hx | hx
            · exact hx
            · rcases List.mem_cons.mp hx with hx2 | hx2
              · rw [hx2] at heq
                rw [heq] at hl3gt
                exact absurd hl3gt (lt_irrefl k)
              · cases hx2
          have hne3 : mx ≠ s3 := by omega
          have hstep : gmlStep (keyCmp keyf k) bytes mn mx = .next e2 s3 := by
            unfold gmlStep
            rw [hfind]
            simp only []
            rw [hcmp]
            simp only []
            rw [hfind2]
            simp only []
            rw [if_neg (show ¬(s2 ≠ mn) from fun hcon => hcon hs2mn)]
            rw [hcmp2]
            simp only []
            rw [if_neg hne2, if_neg hmx0]
            rw [hfind3]
            simp only []
            rw [if_neg (show ¬(e3 ≠ mx) from fun hcon => hcon he3mx)]
            rw [hcmp3]
            simp only []
            rw [if_neg hne3]
          have hs30 : s3 ≠ 0 := by omega
          have hInv2 : SearchInv keyf k bytes F e2 s3 := by
            refine ⟨hlt3, by omega, Or.inr hg2, Or.inr hg3, ?_, ?_, ?_⟩
            · show List.Chain' _ (winLines bytes e2 s3)
              unfold winLines
              rw [trimE_of_nl hs30 hg3, hsp3]
              exact hchA3
            · show ∃ x ∈ winLines bytes e2 s3, keyf x = k
              unfold winLines
              rw [trimE_of_nl hs30 hg3, hsp3]
              exact ⟨l, hlA3, heq⟩
            · show (winLines bytes e2 s3).filter _ = F
              unfold winLines
              rw [trimE_of_nl hs30 hg3, hsp3]
              have hfl2 : (l2 :: B2).filter (fun x => decide (keyf x = k))
                  = B2.filter (fun x => decide (keyf x = k)) := by
                rw [List.filter_cons]
                rw [if_neg (by simp [ne_of_lt hl2lt])]
              have hfl3 : (A3 ++ [l3]).filter (fun x => decide (keyf x = k))
                  = A3.filter (fun x => decide (keyf x = k)) := by
                rw [List.filter_append]
                have h7 : [l3].filter (fun x => decide (keyf x = k)) = [] := by
                  apply filter_key_nil
                  intro x hx hc
                  rcases List.mem_cons.mp hx with hx2 | hx2
                  · rw [hx2] at hc
                    rw [hc] at hl3gt
                    exact absurd hl3gt (lt_irrefl k)
                  · cases hx2
                rw [h7, List.append_nil]
              rw [← hfilterW, hW2', hfl2, hW3', hfl3]
          have hmeas : s3 - e2 < n := by omega
          obtain ⟨a, b, hloop, hsp⟩ := ih (s3 - e2) hmeas e2 s3 le_rfl hInv2
          refine ⟨a, b, ?_, hsp⟩
          rw [gmlLoop_eq, hstep]
          exact hloop
      · -- (a) probe is Equal: min is at the left edge of the run
        have hcmp2 : keyCmp keyf k l2 = .eq := cmp3_eq_eq.mpr hl2eq
        obtain ⟨A3, l3, B3, s3, e3, hW3, hfind3, hs31, hs32, he31, he32, hA3nil, hA3c, hB3nil, hB3c⟩ :=
          probe_decomp bytes mx (trimE bytes mx) hmxlen rfl (winLines bytes mn mx)
            mn (mx - 1) rfl hmnT hpos3a hpos3b
        have hB3e : B3 = [] := by
          by_cases hB3 : B3 = []
          · exact hB3
          · obtain ⟨_, hlt3, _, _⟩ := hB3c hB3
            omega
        have he3mx : e3 = mx := hB3nil hB3e
        have hW3' : winLines bytes mn mx = A3 ++ [l3] := by
          rw [hW3, hB3e]
        obtain ⟨hchA3, hchl3, hleA3, _⟩ :=
          chain'_decomp keyf A3 [] l3 (by rw [show A3 ++ l3 :: ([] : List (List Nat)) = A3 ++ [l3] from rfl, ← hW3']; exact hsortedW)
        rcases lt_trichotomy (keyf l3) k with hl3lt | hl3eq | hl3gt
        · -- last line Less: impossible
          exfalso
          have hlmem3 : l ∈ A3 ++ [l3] := by
            rw [← hW3', hW]
            exact List.mem_append_right A (List.mem_cons_self l B)
          rcases List.mem_append.mp hlmem3 with hx | hx
          · have h5 := hleA3 l hx
            rw [heq] at h5
            exact absurd (lt_of_le_of_lt h5 hl3lt) (lt_irrefl k)
          · rcases List.mem_cons.mp hx with hx2 | hx2
            · rw [hx2] at heq
              rw [heq] at hl3lt
              exact absurd hl3lt (lt_irrefl k)
            · cases hx2
        · -- success: both edges equal the key
          have hcmp3 : keyCmp keyf k l3 = .eq := cmp3_eq_eq.mpr hl3eq
          have hstep : gmlStep (keyCmp keyf k) bytes mn mx = .stop mn (trimE bytes mx) := by
            unfold gmlStep
            rw [hfind]
            simp only []
            rw [hcmp]
            simp only []
            rw [hfind2]
            simp only []
            rw [if_neg (show ¬(s2 ≠ mn) from fun hcon => hcon hs2mn)]
            rw [hcmp2]
            simp only []
            rw [if_neg hmx0]
            rw [hfind3]
            simp only []
            rw [if_neg (show ¬(e3 ≠ mx) from fun hcon => hcon he3mx)]
            rw [hcmp3]
            simp only []
            rfl
          have hallk : ∀ x ∈ winLines bytes mn mx, keyf x = k := by
            intro x hx
            have hub : keyf x ≤ k := by
              have hx3 : x ∈ A3 ++ [l3] := by rw [← hW3']; exact hx
              rcases List.mem_append.mp hx3 with hx2 | hx2
              · rw [← hl3eq]
                exact hleA3 x hx2
              · rcases List.mem_cons.mp hx2 with hx4 | hx4
                · rw [hx4, hl3eq]
                · cases hx4
            have hlb : k ≤ keyf x := by
              have hx2 : x ∈ l2 :: B2 := by rw [← hW2']; exact hx
              rcases List.mem_cons.mp hx2 with hx4 | hx4
              · rw [hx4, hl2eq]
              · rw [← hl2eq]
                exact hleB2 x hx4
            exact le_antisymm hub hlb
          have hWF : winLines bytes mn mx = F := by
            rw [← hfilterW]
            exact (filter_key_all hallk).symm
          refine ⟨mn, trimE bytes mx, ?_, ?_⟩
          · rw [gmlLoop_eq, hstep]
          · exact hWF
        · -- last line Greater: shrink max to s3
          have hcmp3 : keyCmp keyf k l3 = .gt := cmp3_eq_gt.mpr hl3gt
          have hA3ne : A3 ≠ [] := by
            intro hA3e
            rw [hA3e] at hW3'
            have h6 : l2 :: B2 = [l3] := by rw [← hW2', hW3']; rfl
            injection h6 with h7 h8
            rw [h7] at hl2eq
            rw [hl2eq] at hl3gt
            exact absurd hl3gt (lt_irrefl k)
          obtain ⟨hg3, hlt3, hT3, hsp3⟩ := hA3c hA3ne
          have hl2A3 : l2 ∈ A3 := by
            cases A3 with
            | nil => exact absurd rfl hA3ne
            | cons a3 A3t =>
              have h6 : l2 :: B2 = a3 :: (A3t ++ [l3]) := by
                rw [← hW2', hW3']
                rfl
              injection h6 with h7 h8
              rw [h7]
              exact List.mem_cons_self a3 A3t
          have hne3 : mx ≠ s3 := by omega
          have hstep : gmlStep (keyCmp keyf k) bytes mn mx = .next mn s3 := by
            unfold gmlStep
            rw [hfind]
            simp only []
            rw [hcmp]
            simp only []
            rw [hfind2]
            simp only []
            rw [if_neg (show ¬(s2 ≠ mn) from fun hcon => hcon hs2mn)]
            rw [hcmp2]
            simp only []
            rw [if_neg hmx0]
            rw [hfind3]
            simp only []
            rw [if_neg (show ¬(e3 ≠ mx) from fun hcon => hcon he3mx)]
            rw [hcmp3]
            simp only []
            rw [if_neg hne3]
          have hs30 : s3 ≠ 0 := by omega
          have hInv2 : SearchInv keyf k bytes F mn s3 := by
            refine ⟨hlt3, by omega, halignL, Or.inr hg3, ?_, ?_, ?_⟩
            · show List.Chain' _ (winLines bytes mn s3)
              unfold winLines
              rw [trimE_of_nl hs30 hg3, hsp3]
              exact hchA3
            · show ∃ x ∈ winLines bytes mn s3, keyf x = k
              unfold winLines
              rw [trimE_of_nl hs30 hg3, hsp3]
              exact ⟨l2, hl2A3, hl2eq⟩
            · show (winLines bytes mn s3).filter _ = F
              unfold winLines
              rw [trimE_of_nl hs30 hg3, hsp3]
              have hfl3 : (A3 ++ [l3]).filter (fun x => decide (keyf x = k))
                  = A3.filter (fun x => decide (keyf x = k)) := by
                rw [List.filter_append]
                have h7 : [l3].filter (fun x => decide (keyf x = k)) = [] := by
                  apply filter_key_nil
                  intro x hx hc
                  rcases List.mem_cons.mp hx with hx2 | hx2
                  · rw [hx2] at hc
                    rw [hc] at hl3gt
                    exact absurd hl3gt (lt_irrefl k)
                  · cases hx2
                rw [h7, List.append_nil]
              rw [← hfilterW, hW3', hfl3]
          have hmeas : s3 - mn < n := by omega
          obtain ⟨a, b, hloop, hsp⟩ := ih (s3 - mn) hmeas mn s3 le_rfl hInv2
          refine ⟨a, b, ?_, hsp⟩
          rw [gmlLoop_eq, hstep]
          exact hloop
      · -- (a) probe Greater: impossible for a sorted window containing the key
        exfalso
        rcases List.mem_cons.mp hlmem with hx | hx
        · rw [hx] at heq
          rw [heq] at hl2gt
          exact absurd hl2gt (lt_irrefl k)
        · have h5 := hleB2 l hx
          rw [heq] at h5
          exact absurd (lt_of_lt_of_le hl2gt h5) (lt_irrefl k)
    · -- mid line is Greater: shrink max to s
      have hcmp : keyCmp keyf k l = .gt := cmp3_eq_gt.mpr hgt
      have hAne : A ≠ [] := by
        obtain ⟨lk, hlkmem, hlkkey⟩ := hpresent
        rcases List.mem_append.mp hlkmem with hmem | hmem
        · intro hAe
          rw [hAe] at hmem
          cases hmem
        · rcases List.mem_cons.mp hmem with hmem2 | hmem2
          · subst hmem2
            exact absurd (hlkkey ▸ hgt) (lt_irrefl _)
          · have := hleB lk hmem2
            rw [hlkkey] at this
            exact absurd (lt_of_lt_of_le hgt this) (lt_irrefl k)
      obtain ⟨hAg, hAlt, hAT, hAsp⟩ := hAc hAne
      have hne2 : mx ≠ s := by omega
      have hstep : gmlStep (keyCmp keyf k) bytes mn mx = .next mn s := by
        unfold gmlStep
        rw [hfind]
        simp only []
        rw [hcmp]
        simp only []
        rw [if_neg hne2]
      have hs0 : s ≠ 0 := by omega
      have hInv2 : SearchInv keyf k bytes F mn s := by
        refine ⟨hAlt, by omega, halignL, Or.inr hAg, ?_, ?_, ?_⟩
        · show List.Chain' _ (winLines bytes mn s)
          unfold winLines
          rw [trimE_of_nl hs0 hAg, hAsp]
          exact hchA
        · show ∃ l2 ∈ winLines bytes mn s, keyf l2 = k
          unfold winLines
          rw [trimE_of_nl hs0 hAg, hAsp]
          obtain ⟨lk, hlkmem, hlkkey⟩ := hpresent
          refine ⟨lk, ?_, hlkkey⟩
          rcases List.mem_append.mp hlkmem with hmem | hmem
          · exact hmem
          · rcases List.mem_cons.mp hmem with hmem2 | hmem2
            · subst hmem2
              exact absurd (hlkkey ▸ hgt) (lt_irrefl _)
            · have := hleB lk hmem2
              rw [hlkkey] at this
              exact absurd (lt_of_lt_of_le hgt this) (lt_irrefl k)
        · show (winLines bytes mn s).filter _ = F
          unfold winLines
          rw [trimE_of_nl hs0 hAg, hAsp]
          rw [← hfilter, List.filter_append]
          have hnilr : (l :: B).filter (fun x => decide (keyf x = k)) = [] := by
            apply filter_key_nil
            intro x hx
            rcases List.mem_cons.mp hx with hx2 | hx2
            · subst hx2
              exact fun hc => absurd (hc ▸ hgt) (lt_irrefl _)
            · have := hleB x hx2
              intro hc
              rw [hc] at this
              exact absurd (lt_of_lt_of_le hgt this) (lt_irrefl k)
          rw [hnilr, List.append_nil]
      have hmeas : s - mn < n := by omega
      obtain ⟨a, b, hloop, hsp⟩ := ih (s - mn) hmeas mn s le_rfl hInv2
      refine ⟨a, b, ?_, hsp⟩
      rw [gmlLoop_eq, hstep]
      exact hloop

theorem getMatchingLines_sorted_present {K : Type*} [LinearOrder K] (keyf : List Nat → K)
    (k : K) (bytes : List Nat) (hne : bytes ≠ []) (hstrip : stripTrailingNL bytes = bytes)
    (hsorted : isSorted (lineCmp keyf) bytes = true)
    (hpresent : ∃ l ∈ splitOn 10 bytes, keyf l = k) :
    getMatchingLines (keyCmp keyf k) bytes
      = some ((splitOn 10 bytes).filter (fun l => decide (keyf l = k))) := by
  have hlen : 0 < bytes.length := List.length_pos.mpr hne
  have hTfull : trimE bytes bytes.length = bytes.length := by
    unfold trimE
    rw [if_neg]
    intro hcon
    exact stripTrailingNL_fix_last hstrip hne hcon.2
  have hwin : winLines bytes 0 bytes.length = splitOn 10 bytes := by
    unfold winLines
    rw [hTfull, sliceL_all]
  have hInv : SearchInv keyf k bytes
      ((splitOn 10 bytes).filter (fun l => decide (keyf l = k))) 0 bytes.length := by
    refine ⟨hlen, le_rfl, Or.inl rfl, Or.inl rfl, ?_, ?_, ?_⟩
    · show List.Chain' _ (winLines bytes 0 bytes.length)
      rw [hwin]
      exact (isSorted_iff_chain'_le keyf bytes).mp hsorted
    · show ∃ l ∈ winLines bytes 0 bytes.length, keyf l = k
      rw [hwin]
      exact hpresent
    · show (winLines bytes 0 bytes.length).filter _ = _
      rw [hwin]
  obtain ⟨a, b, hloop, hsp⟩ :=
    gmlLoop_inv keyf k bytes _ bytes.length 0 bytes.length (by omega) hInv
  unfold getMatchingLines
  rw [hloop]
  simp only [Option.map_some']
  rw [hsp]

theorem slice_no_nl {bytes : List Nat} {a b : Nat} (hb : b ≤ bytes.length)
    (h : ∀ x ∈ sliceL bytes a b, (x == 10) = false) :
    ∀ j, a ≤ j → j < b → bytes.getD j 0 ≠ 10 := by
  intro j h1 h2 hc
  have h3 := h _ (sliceL_getD_mem h1 h2 hb)
  rw [hc] at h3
  simp at h3

theorem findLineAt_resolves {bytes : List Nat} {mn mx pos : Nat}
    (h1 : mn ≤ pos) (h2 : pos ≤ mx) (h3 : mx ≤ bytes.length)
    (h4 : ¬(pos = mx ∧ mx ≠ 0 ∧ bytes.getD (mx - 1) 0 = 10)) :
    ∃ s e l, findLineAt bytes mn mx pos = some (s, e, l)
      ∧ mn ≤ s ∧ s ≤ e ∧ e ≤ mx ∧ s ≤ pos ∧ pos ≤ e
      ∧ ((s = mn ∧ ∀ j, mn ≤ j → j < pos → bytes.getD j 0 ≠ 10)
         ∨ (mn < s ∧ s ≤ pos ∧ bytes.getD (s - 1) 0 = 10
            ∧ ∀ j, s ≤ j → j < pos → bytes.getD j 0 ≠ 10))
      ∧ ((e = mx ∧ ∀ j, pos ≤ j → j < mx → bytes.getD j 0 ≠ 10)
         ∨ (pos < e ∧ e ≤ mx ∧ bytes.getD (e - 1) 0 = 10
            ∧ ∀ j, pos ≤ j → j < e - 1 → bytes.getD j 0 ≠ 10))
      ∧ l = sliceL bytes s (if e ≠ 0 ∧ bytes.getD (e - 1) 0 = 10 then e - 1 else e) := by
  cases hr : rposO (fun b => b == 10) (sliceL bytes mn pos) with
  | none =>
    have hnoS : ∀ j, mn ≤ j → j < pos → bytes.getD j 0 ≠ 10 :=
      slice_no_nl (by omega) (rposO_none_iff.mp hr)
    cases hf : findIdxO (fun b => b == 10) (sliceL bytes pos mx) with
    | none =>
      have hnoE : ∀ j, pos ≤ j → j < mx → bytes.getD j 0 ≠ 10 :=
        slice_no_nl h3 (findIdxO_none_iff.mp hf)
      have hle : ¬((if mx ≠ 0 ∧ bytes.getD (mx - 1) 0 = 10 then mx - 1 else mx) < mn) := by
        by_cases hc : mx ≠ 0 ∧ bytes.getD (mx - 1) 0 = 10
        · rw [if_pos hc]
          intro hlt
          have hpm : pos = mx := by omega
          exact h4 ⟨hpm, hc⟩
        · rw [if_neg hc]
          omega
      have hres : findLineAt bytes mn mx pos
          = some (mn, mx, sliceL bytes mn
              (if mx ≠ 0 ∧ bytes.getD (mx - 1) 0 = 10 then mx - 1 else mx)) := by
        unfold findLineAt
        rw [if_neg (by omega)]
        rw [hr]
        simp only []
        rw [if_neg (by omega)]
        rw [hf]
        simp only []
        rw [if_neg (by omega)]
        rw [if_neg hle]
      exact ⟨mn, mx, _, hres, le_rfl, by omega, le_rfl, h1, h2,
        Or.inl ⟨rfl, hnoS⟩, Or.inl ⟨rfl, hnoE⟩, rfl⟩
    | some p2 =>
      obtain ⟨hp2a, hp2b, hp2c⟩ := findIdxO_some hf
      rw [sliceL_length h2 h3] at hp2a
      have hg10 : bytes.getD (pos + p2) 0 = 10 := by
        have h5 : (sliceL bytes pos mx).getD p2 0 = bytes.getD (pos + p2) 0 :=
          sliceL_getD (by omega) h3
        rw [h5] at hp2b
        simpa using hp2b
      have hnoE : ∀ j, pos ≤ j → j < pos + p2 + 1 - 1 → bytes.getD j 0 ≠ 10 := by
        intro j hj1 hj2 hc
        have h5 : (sliceL bytes pos mx).getD (j - pos) 0 = bytes.getD j 0 := by
          rw [sliceL_getD (by omega) h3, show pos + (j - pos) = j from by omega]
        have h6 := hp2c (j - pos) (by omega)
        rw [h5, hc] at h6
        simp at h6
      have hres : findLineAt bytes mn mx pos
          = some (mn, pos + p2 + 1, sliceL bytes mn
              (if pos + p2 + 1 ≠ 0 ∧ bytes.getD (pos + p2 + 1 - 1) 0 = 10
               then pos + p2 + 1 - 1 else pos + p2 + 1)) := by
        have hg3 : ¬(mn < mn ∨ mx < pos + p2 + 1 ∨ pos + p2 + 1 < mn) := by omega
        have hg4 : ¬((if pos + p2 + 1 ≠ 0 ∧ bytes.getD (pos + p2 + 1 - 1) 0 = 10
            then pos + p2 + 1 - 1 else pos + p2 + 1) < mn) := by
          by_cases hc : pos + p2 + 1 ≠ 0 ∧ bytes.getD (pos + p2 + 1 - 1) 0 = 10
          · rw [if_pos hc]; omega
          · rw [if_neg hc]; omega
        unfold findLineAt
        rw [if_neg (by omega)]
        rw [hr]
        simp only []
        rw [if_neg (by omega)]
        rw [hf]
        simp only []
        rw [if_neg hg3]
        rw [if_neg hg4]
      refine ⟨mn, pos + p2 + 1, _, hres, le_rfl, by omega, by omega, h1, by omega,
        Or.inl ⟨rfl, hnoS⟩, Or.inr ⟨by omega, by omega, ?_, hnoE⟩, rfl⟩
      rw [show pos + p2 + 1 - 1 = pos + p2 from by omega]
      exact hg10
  | some p =>
    obtain ⟨hpa, hpb, hpc⟩ := rposO_some hr
    rw [sliceL_length h1 (by omega)] at hpa
    have hg10 : bytes.getD (mn + p) 0 = 10 := by
      have h5 : (sliceL bytes mn pos).getD p 0 = bytes.getD (mn + p) 0 :=
        sliceL_getD (by omega) (by omega)
      rw [h5] at hpb
      simpa using hpb
    have hnoS : ∀ j, mn + p + 1 ≤ j → j < pos → bytes.getD j 0 ≠ 10 := by
      intro j hj1 hj2 hc
      have h5 : (sliceL bytes mn pos).getD (j - mn) 0 = bytes.getD j 0 := by
        rw [sliceL_getD (by omega) (by omega), show mn + (j - mn) = j from by omega]
      have h6 := hpc (j - mn) (by omega) (by rw [sliceL_length h1 (by omega)]; omega)
      rw [h5, hc] at h6
      simp at h6
    have hsg : bytes.getD (mn + p + 1 - 1) 0 = 10 := by
      rw [show mn + p + 1 - 1 = mn + p from by omega]
      exact hg10
    cases hf : findIdxO (fun b => b == 10) (sliceL bytes pos mx) with
    | none =>
      have hnoE : ∀ j, pos ≤ j → j < mx → bytes.getD j 0 ≠ 10 :=
        slice_no_nl h3 (findIdxO_none_iff.mp hf)
      have hle : ¬((if mx ≠ 0 ∧ bytes.getD (mx - 1) 0 = 10 then mx - 1 else mx) < mn + p + 1) := by
        by_cases hc : mx ≠ 0 ∧ bytes.getD (mx - 1) 0 = 10
        · rw [if_pos hc]
          intro hlt
          have hpm : pos = mx := by omega
          exact h4 ⟨hpm, hc⟩
        · rw [if_neg hc]
          omega
      have hres : findLineAt bytes mn mx pos
          = some (mn + p + 1, mx, sliceL bytes (mn + p + 1)
              (if mx ≠ 0 ∧ bytes.getD (mx - 1) 0 = 10 then mx - 1 else mx)) := by
        have hg3 : ¬(mn + p + 1 < mn ∨ mx < mx ∨ mx < mn + p + 1) := by omega
        unfold findLineAt
        rw [if_neg (by omega)]
        rw [hr]
        simp only []
        rw [if_neg (by omega)]
        rw [hf]
        simp only []
        rw [if_neg hg3]
        rw [if_neg hle]
      exact ⟨mn + p + 1, mx, _, hres, by omega, by omega, le_rfl, by omega, h2,
        Or.inr ⟨by omega, by omega, hsg, hnoS⟩, Or.inl ⟨rfl, hnoE⟩, rfl⟩
    | some p2 =>
      obtain ⟨hp2a, hp2b, hp2c⟩ := findIdxO_some hf
      rw [sliceL_length h2 h3] at hp2a
      have hg10b : bytes.getD (pos + p2) 0 = 10 := by
        have h5 : (sliceL bytes pos mx).getD p2 0 = bytes.getD (pos + p2) 0 :=
          sliceL_getD (by omega) h3
        rw [h5] at hp2b
        simpa using hp2b
      have hnoE : ∀ j, pos ≤ j → j < pos + p2 + 1 - 1 → bytes.getD j 0 ≠ 10 := by
        intro j hj1 hj2 hc
        have h5 : (sliceL bytes pos mx).getD (j - pos) 0 = bytes.getD j 0 := by
          rw [sliceL_getD (by omega) h3, show pos + (j - pos) = j from by omega]
        have h6 := hp2c (j - pos) (by omega)
        rw [h5, hc] at h6
        simp at h6
      have hres : findLineAt bytes mn mx pos
          = some (mn + p + 1, pos + p2 + 1, sliceL bytes (mn + p + 1)
              (if pos + p2 + 1 ≠ 0 ∧ bytes.getD (pos + p2 + 1 - 1) 0 = 10
               then pos + p2 + 1 - 1 else pos + p2 + 1)) := by
        have hg3 : ¬(mn + p + 1 < mn ∨ mx < pos + p2 + 1 ∨ pos + p2 + 1 < mn + p + 1) := by
          omega
        have hg4 : ¬((if pos + p2 + 1 ≠ 0 ∧ bytes.getD (pos + p2 + 1 - 1) 0 = 10
            then pos + p2 + 1 - 1 else pos + p2 + 1) < mn + p + 1) := by
          by_cases hc : pos + p2 + 1 ≠ 0 ∧ bytes.getD (pos + p2 + 1 - 1) 0 = 10
          · rw [if_pos hc]; omega
          · rw [if_neg hc]; omega
        unfold findLineAt
        rw [if_neg (by omega)]
        rw [hr]
        simp only []
        rw [if_neg (by omega)]
        rw [hf]
        simp only []
        rw [if_neg hg3]
        rw [if_neg hg4]
      refine ⟨mn + p + 1, pos + p2 + 1, _, hres, by omega, by omega, by omega, by omega,
        by omega, Or.inr ⟨by omega, by omega, hsg, hnoS⟩,
        Or.inr ⟨by omega, by omega, ?_, hnoE⟩, rfl⟩
      rw [show pos + p2 + 1 - 1 = pos + p2 from by omega]
      exact hg10b

/-! ### Claim theorems -/

/-- C1 (amended): for a nonempty buffer fixed under trailing-newline stripping
(i.e. any buffer as produced by construction, other than the empty one), whose
lines are sorted non-decreasing by key and which contains at least one line with
the search key, `get_matching_lines` returns exactly the buffer lines whose key
equals the search key (the maximal contiguous run), in original order.  The
original claim, without the nonemptiness hypothesis, is refuted by
`claim_C1_counterexample`: on the empty buffer the call panics. -/
theorem claim_C1 {K : Type*} [LinearOrder K] (keyf : List Nat → K) (k : K)
    (bytes : List Nat) (hne : bytes ≠ []) (hstrip : stripTrailingNL bytes = bytes)
    (hsorted : isSorted (lineCmp keyf) bytes = true)
    (hpresent : ∃ l ∈ splitOn 10 bytes, keyf l = k) :
    getMatchingLines (keyCmp keyf k) bytes
      = some ((splitOn 10 bytes).filter (fun l => decide (keyf l = k))) :=
  getMatchingLines_sorted_present keyf k bytes hne hstrip hsorted hpresent

/-- C1, counterexample to the original universal claim: the empty buffer is
sorted, is fixed by construction-time stripping, and contains a line (the empty
line) whose parsed key is `0`; yet `get_matching_lines` for the key `0` panics
(`none`) instead of returning that line. -/
theorem claim_C1_counterexample :
    isSorted (tsvParseCompareLines 4294967295 0) [] = true
    ∧ stripTrailingNL [] = []
    ∧ (splitOn 10 ([] : List Nat)).any
        (fun l => tsvParseValue 4294967295 0 l == 0) = true
    ∧ getMatchingLines (keyCmp (tsvParseValue 4294967295 0) 0) [] = none := by
  decide

/-- C1 witness: the TSV buffer `"1\t9\n2\t8\n2\t7\n3\t6"` with the `u32`-parsed
key column `0` and search key `2` yields exactly the two middle lines. -/
theorem claim_C1_witness :
    getMatchingLines (keyCmp (tsvParseValue 4294967295 0) 2)
        [49, 9, 57, 10, 50, 9, 56, 10, 50, 9, 55, 10, 51, 9, 54]
      = some [[50, 9, 56], [50, 9, 55]] :=
  (claim_C1 (tsvParseValue 4294967295 0) 2
      [49, 9, 57, 10, 50, 9, 56, 10, 50, 9, 55, 10, 51, 9, 54]
      (by decide) (by decide) (by decide) (by decide)).trans (by decide)

/-- C2: the claim that an absent key yields an empty sequence (no panic) — in
particular on the empty buffer — is false of the code: on the sorted one-line
buffer `"A"` with the absent key `"B"` (no line compares `Equal`), and likewise
on the empty buffer, `get_matching_lines` reaches `assert!(min != end)` with
`min = end` and panics (`none` in this embedding), instead of returning an
empty sequence. -/
theorem claim_C2 :
    isSorted (tsvTextCompareLines 0) [65] = true
    ∧ (splitOn 10 [65]).all
        (fun l => !(tsvTextCompareKey 0 l [66] == Ordering.eq)) = true
    ∧ getMatchingLines (fun l => tsvTextCompareKey 0 l [66]) [65] = none
    ∧ isSorted (tsvTextCompareLines 0) [] = true
    ∧ (splitOn 10 ([] : List Nat)).all
        (fun l => !(tsvTextCompareKey 0 l [66] == Ordering.eq)) = true
    ∧ getMatchingLines (fun l => tsvTextCompareKey 0 l [66]) [] = none := by
  decide

/-- C3 (amended): whenever the Equal branch detects a sortedness violation —
the line at `min` compares Greater than the key, or the line at `max − 1`
compares Less than the key (both when the `min` line compared Equal and when it
compared Less, `min` having then advanced past it to `ea`) — the loop collapses
the range (`max ← min`) and stops without reporting a distinct error; but
splitting the resulting empty byte range yields one empty line, so the final
result is a sequence of exactly one empty line — not the empty sequence the
original claim states (see `claim_C3_counterexample`). -/
theorem claim_C3 (cmp : List Nat → Ordering) (bytes : List Nat) (mn mx : Nat)
    (s e : Nat) (line : List Nat) (ea : Nat) (la : List Nat)
    (h1 : findLineAt bytes mn mx (mn + (mx - mn) / 2) = some (s, e, line))
    (h2 : cmp line = Ordering.eq)
    (h3 : findLineAt bytes mn mx mn = some (mn, ea, la)) :
    (cmp la = Ordering.gt →
      gmlStep cmp bytes mn mx = Step.stop mn mn
      ∧ splitOn 10 (sliceL bytes mn mn) = [[]])
    ∧ (∀ sb eb lb, cmp la = Ordering.eq → mx ≠ 0 →
        findLineAt bytes mn mx (mx - 1) = some (sb, eb, lb) → eb = mx →
        cmp lb = Ordering.lt →
        gmlStep cmp bytes mn mx = Step.stop mn mn
        ∧ splitOn 10 (sliceL bytes mn mn) = [[]])
    ∧ (∀ sb eb lb, cmp la = Ordering.lt → mn ≠ ea → mx ≠ 0 →
        findLineAt bytes ea mx (mx - 1) = some (sb, eb, lb) → eb = mx →
        cmp lb = Ordering.lt →
        gmlStep cmp bytes mn mx = Step.stop ea ea
        ∧ splitOn 10 (sliceL bytes ea ea) = [[]]) := by
  have hsplit : ∀ m : Nat, splitOn 10 (sliceL bytes m m) = [[]] := by
    intro m
    rw [sliceL_nil_of_le le_rfl]
    rfl
  refine ⟨?_, ?_, ?_⟩
  · intro h4
    refine ⟨?_, hsplit mn⟩
    unfold gmlStep
    rw [h1]
    simp only []
    rw [h2]
    simp only []
    rw [h3]
    simp only []
    rw [if_neg (show ¬ mn ≠ mn from fun hx => hx rfl)]
    rw [h4]
  · intro sb eb lb h4 hmx0 h5 heb h6
    refine ⟨?_, hsplit mn⟩
    unfold gmlStep
    rw [h1]
    simp only []
    rw [h2]
    simp only []
    rw [h3]
    simp only []
    rw [if_neg (show ¬ mn ≠ mn from fun hx => hx rfl)]
    rw [h4]
    simp only []
    rw [if_neg hmx0]
    rw [h5]
    simp only []
    rw [if_neg (show ¬ eb ≠ mx from fun hx => hx heb)]
    rw [h6]
  · intro sb eb lb h4 hnea hmx0 h5 heb h6
    refine ⟨?_, hsplit ea⟩
    unfold gmlStep
    rw [h1]
    simp only []
    rw [h2]
    simp only []
    rw [h3]
    simp only []
    rw [if_neg (show ¬ mn ≠ mn from fun hx => hx rfl)]
    rw [h4]
    simp only []
    rw [if_neg hnea]
    rw [if_neg hmx0]
    rw [h5]
    simp only []
    rw [if_neg (show ¬ eb ≠ mx from fun hx => hx heb)]
    rw [h6]

/-- C3, counterexample to "terminates with an empty result (a sequence yielding
no lines)": on the unsorted buffer `"B\nA\nA"` with key `"A"`, the collapse
fires, and the overall result is `some [[]]` — a sequence yielding one (empty)
line, not zero lines. -/
theorem claim_C3_counterexample :
    gmlStep (fun l => tsvTextCompareKey 0 l [65]) [66, 10, 65, 10, 65] 0 5
      = Step.stop 0 0
    ∧ getMatchingLines (fun l => tsvTextCompareKey 0 l [65]) [66, 10, 65, 10, 65]
        = some [[]]
    ∧ ([([] : List Nat)] : List (List Nat)).length ≠ 0 := by
  decide

/-- C3 witness, covering both triggers: on the buffer `"B\nA\nA"` with key
`"A"` the minimum-probe line compares Greater, and on the buffer `"B\nA"` with
key `"B"` the line at `max − 1` compares Less; in each case the collapse yields
an empty range whose splitting is the one-empty-line sequence. -/
theorem claim_C3_witness :
    (gmlStep (fun l => tsvTextCompareKey 0 l [65]) [66, 10, 65, 10, 65] 0 5
       = Step.stop 0 0
     ∧ splitOn 10 (sliceL [66, 10, 65, 10, 65] 0 0) = [[]])
    ∧ (gmlStep (fun l => tsvTextCompareKey 0 l [66]) [66, 10, 65] 0 3
         = Step.stop 0 0
       ∧ splitOn 10 (sliceL [66, 10, 65] 0 0) = [[]]) :=
  ⟨(claim_C3 (fun l => tsvTextCompareKey 0 l [65]) [66, 10, 65, 10, 65] 0 5
      2 4 [65] 2 [66] (by decide) (by decide) (by decide)).1 (by decide),
   (claim_C3 (fun l => tsvTextCompareKey 0 l [66]) [66, 10, 65] 0 3
      0 2 [66] 2 [66] (by decide) (by decide) (by decide)).2.1
     2 3 [65] (by decide) (by decide) (by decide) (by decide) (by decide)⟩

/-- C4 (amended): every iteration of the bisection loop that continues
(`.next`) strictly shrinks `max − min`, so the loop terminates: any fuel above
`max − min` computes the loop's value.  The original claim's enumeration of
exits ("success path or sortedness-violation collapse") is incomplete: the loop
can also exit by panicking, see `claim_C4_counterexample`. -/
theorem claim_C4 (cmp : List Nat → Ordering) (bytes : List Nat) (mn mx a b : Nat)
    (h : gmlStep cmp bytes mn mx = Step.next a b) :
    b - a < mx - mn
    ∧ ∀ f, mx - mn < f → gmlLoopF cmp bytes f mn mx = gmlLoop cmp bytes mn mx := by
  refine ⟨(gmlStep_next h).1, ?_⟩
  intro f hf
  exact gmlLoopF_congr f (mx - mn + 1) mn mx hf (by omega)

/-- C4, counterexample to "every iteration either exits via the success path or
a sortedness-violation collapse, or strictly decreases max − min": on the
sorted buffer `"A"` with key `"B"`, the first iteration continues with the
range `(1, 1)`, and the second iteration exits by panicking (`.fail`, the
failed `assert!`) — neither the success path nor a collapse. -/
theorem claim_C4_counterexample :
    isSorted (tsvTextCompareLines 0) [65] = true
    ∧ gmlStep (fun l => tsvTextCompareKey 0 l [66]) [65] 0 1 = Step.next 1 1
    ∧ gmlStep (fun l => tsvTextCompareKey 0 l [66]) [65] 1 1 = Step.fail := by
  decide

/-- C4 witness: the continuing iteration on the buffer `"A"` with key `"B"`
strictly shrinks the range, and any sufficient fuel computes the loop. -/
theorem claim_C4_witness :
    gmlStep (fun l => tsvTextCompareKey 0 l [66]) [65] 0 1 = Step.next 1 1
    ∧ ((1 : Nat) - 1 < 1 - 0
       ∧ ∀ f, 1 - 0 < f →
           gmlLoopF (fun l => tsvTextCompareKey 0 l [66]) [65] f 0 1
             = gmlLoop (fun l => tsvTextCompareKey 0 l [66]) [65] 0 1) :=
  ⟨by decide, claim_C4 (fun l => tsvTextCompareKey 0 l [66]) [65] 0 1 1 1 (by decide)⟩

/-- C5: `is_sorted` is true exactly when no adjacent pair of lines compares
Greater under the accessor's comparator; `"B\nA\nC"` is unsorted under the
raw-byte comparator, and `"10\n0100"` is unsorted under the raw-byte comparator
but sorted under the `u32`-parsed comparator. -/
theorem claim_C5 :
    (∀ (cmpL : List Nat → List Nat → Ordering) (bytes : List Nat),
        isSorted cmpL bytes = true
          ↔ List.Chain' (fun a b => ¬ cmpL a b = Ordering.gt) (splitOn 10 bytes))
    ∧ isSorted (tsvTextCompareLines 0) [66, 10, 65, 10, 67] = false
    ∧ isSorted (tsvTextCompareLines 0) [49, 48, 10, 48, 49, 48, 48] = false
    ∧ isSorted (tsvParseCompareLines 4294967295 0) [49, 48, 10, 48, 49, 48, 48]
        = true :=
  ⟨fun cmpL bytes => isSorted_iff_chain' cmpL bytes, by decide, by decide, by decide⟩

/-- C6: for any column index at or beyond the line's field count, `col` returns
the empty byte range, and the subsequent UTF-8 decoding step succeeds on it
with the empty string — no failure for out-of-range indices. -/
theorem claim_C6 (sep : Nat) (line : List Nat) (i : Nat)
    (h : (splitOn sep line).length ≤ i) :
    col sep line i = [] ∧ decodeUtf8 (col sep line i) = some [] := by
  have h1 : col sep line i = [] := colFields_out h
  refine ⟨h1, ?_⟩
  rw [h1]
  rfl

/-- C6 witness: the line `"A\tB"` has two tab-separated fields, and column 5 is
the empty range, decoded as the empty string. -/
theorem claim_C6_witness :
    (splitOn 9 [65, 9, 66]).length ≤ 5
    ∧ (col 9 [65, 9, 66] 5 = [] ∧ decodeUtf8 (col 9 [65, 9, 66] 5) = some []) :=
  ⟨by decide, claim_C6 9 [65, 9, 66] 5 (by decide)⟩

/-- C7: construction-time stripping erases any run of trailing newline bytes,
so two raw inputs differing only in trailing newlines construct tables with
identical `keys()` and `cols(i)` results (hence equal record counts); in
particular `"A\nB\nC\n"` and `"A\nB\nC"`. -/
theorem claim_C7 :
    (∀ (bytes : List Nat) (n : Nat),
        stripTrailingNL (bytes ++ List.replicate n 10) = stripTrailingNL bytes)
    ∧ (∀ (bytes : List Nat) (n kc : Nat),
        keysF (stripTrailingNL (bytes ++ List.replicate n 10)) kc
          = keysF (stripTrailingNL bytes) kc)
    ∧ (∀ (bytes : List Nat) (n i : Nat),
        colsF (stripTrailingNL (bytes ++ List.replicate n 10)) i
          = colsF (stripTrailingNL bytes) i)
    ∧ keysF (stripTrailingNL [65, 10, 66, 10, 67, 10]) 0
        = keysF (stripTrailingNL [65, 10, 66, 10, 67]) 0
    ∧ colsF (stripTrailingNL [65, 10, 66, 10, 67, 10]) 0
        = colsF (stripTrailingNL [65, 10, 66, 10, 67]) 0 := by
  refine ⟨stripTrailingNL_append_newlines, ?_, ?_, by decide, by decide⟩
  · intro bytes n kc
    rw [stripTrailingNL_append_newlines]
  · intro bytes n i
    rw [stripTrailingNL_append_newlines]

/-- C8: the typed comparator's `compare_key` and `compare_lines` compare
parsed key-column values, and whenever UTF-8 decoding of a key column fails, or
parsing the decoded text fails, that side silently falls back to the type's
default `0` — on either side of the two-line comparison, and on the line side
of the key comparison — and no error is signalled. -/
theorem claim_C8 (maxV kc : Nat) (line a b : List Nat) (k : Nat) :
    tsvParseCompareKey maxV kc line k = cmp3 (tsvParseValue maxV kc line) k
    ∧ tsvParseCompareLines maxV kc a b
        = cmp3 (tsvParseValue maxV kc a) (tsvParseValue maxV kc b)
    ∧ (utf8Valid (tsvKey kc line) = false → tsvParseValue maxV kc line = 0)
    ∧ (parseUInt maxV (utf8OrEmpty (tsvKey kc line)) = none
        → tsvParseValue maxV kc line = 0)
    ∧ (∀ v, parseUInt maxV (utf8OrEmpty (tsvKey kc line)) = some v
        → tsvParseValue maxV kc line = v)
    ∧ (parseUInt maxV (utf8OrEmpty (tsvKey kc line)) = none
        → tsvParseCompareKey maxV kc line k = cmp3 0 k)
    ∧ (parseUInt maxV (utf8OrEmpty (tsvKey kc a)) = none
        → tsvParseCompareLines maxV kc a b = cmp3 0 (tsvParseValue maxV kc b))
    ∧ (parseUInt maxV (utf8OrEmpty (tsvKey kc b)) = none
        → tsvParseCompareLines maxV kc a b = cmp3 (tsvParseValue maxV kc a) 0)
    ∧ (utf8Valid (tsvKey kc a) = false
        → tsvParseCompareLines maxV kc a b = cmp3 0 (tsvParseValue maxV kc b))
    ∧ (utf8Valid (tsvKey kc b) = false
        → tsvParseCompareLines maxV kc a b = cmp3 (tsvParseValue maxV kc a) 0) := by
  have hv0 : ∀ l : List Nat, parseUInt maxV (utf8OrEmpty (tsvKey kc l)) = none
      → tsvParseValue maxV kc l = 0 := by
    intro l h
    unfold tsvParseValue
    rw [h]
    rfl
  have hu0 : ∀ l : List Nat, utf8Valid (tsvKey kc l) = false
      → tsvParseValue maxV kc l = 0 := by
    intro l h
    unfold tsvParseValue utf8OrEmpty
    rw [h]
    rfl
  refine ⟨rfl, rfl, hu0 line, hv0 line, ?_, ?_, ?_, ?_, ?_, ?_⟩
  · intro v h
    unfold tsvParseValue
    rw [h]
    rfl
  · intro h
    unfold tsvParseCompareKey
    rw [hv0 line h]
  · intro h
    unfold tsvParseCompareLines
    rw [hv0 a h]
  · intro h
    unfold tsvParseCompareLines
    rw [hv0 b h]
  · intro h
    unfold tsvParseCompareLines
    rw [hu0 a h]
  · intro h
    unfold tsvParseCompareLines
    rw [hu0 b h]

/-- C8 witness: the line `"x"` decodes as UTF-8 but fails to parse as a `u32`,
so its key value falls back to the default `0`, both in the key comparison and
on the failing side of the two-line comparison against the line `"5"`. -/
theorem claim_C8_witness :
    parseUInt 4294967295 (utf8OrEmpty (tsvKey 0 [120])) = none
    ∧ tsvParseValue 4294967295 0 [120] = 0
    ∧ tsvParseCompareKey 4294967295 0 [120] 5 = cmp3 0 5
    ∧ tsvParseCompareLines 4294967295 0 [120] [53]
        = cmp3 0 (tsvParseValue 4294967295 0 [53])
    ∧ tsvParseCompareLines 4294967295 0 [53] [120]
        = cmp3 (tsvParseValue 4294967295 0 [53]) 0 :=
  ⟨by decide,
   (claim_C8 4294967295 0 [120] [120] [53] 5).2.2.2.1 (by decide),
   (claim_C8 4294967295 0 [120] [120] [53] 5).2.2.2.2.2.1 (by decide),
   (claim_C8 4294967295 0 [120] [120] [53] 5).2.2.2.2.2.2.1 (by decide),
   (claim_C8 4294967295 0 [120] [53] [120] 5).2.2.2.2.2.2.2.1 (by decide)⟩

/-- C9 (amended): under `min ≤ pos ≤ max ≤ len` and the additional hypothesis
that not (`pos = max`, `max ≠ 0` and the byte before `max` is a newline) —
without it the function panics, see `claim_C9_counterexample` —
`find_line_at` returns `(start, end, line)` with `min ≤ start ≤ end ≤ max`,
`start ≤ pos ≤ end`, `start` one past the nearest newline strictly before `pos`
within `[min, pos)` (or `min` if none), `end` one past the nearest newline at
or after `pos` within `[pos, max)` (or `max` if none), and `line` the bytes of
`[start, end)` with one trailing newline removed exactly when the byte at
`end − 1` is a newline. -/
theorem claim_C9 (bytes : List Nat) (mn mx pos : Nat)
    (h1 : mn ≤ pos) (h2 : pos ≤ mx) (h3 : mx ≤ bytes.length)
    (h4 : ¬(pos = mx ∧ mx ≠ 0 ∧ bytes.getD (mx - 1) 0 = 10)) :
    ∃ s e l, findLineAt bytes mn mx pos = some (s, e, l)
      ∧ mn ≤ s ∧ s ≤ e ∧ e ≤ mx ∧ s ≤ pos ∧ pos ≤ e
      ∧ ((s = mn ∧ ∀ j, mn ≤ j → j < pos → bytes.getD j 0 ≠ 10)
         ∨ (mn < s ∧ s ≤ pos ∧ bytes.getD (s - 1) 0 = 10
            ∧ ∀ j, s ≤ j → j < pos → bytes.getD j 0 ≠ 10))
      ∧ ((e = mx ∧ ∀ j, pos ≤ j → j < mx → bytes.getD j 0 ≠ 10)
         ∨ (pos < e ∧ e ≤ mx ∧ bytes.getD (e - 1) 0 = 10
            ∧ ∀ j, pos ≤ j → j < e - 1 → bytes.getD j 0 ≠ 10))
      ∧ l = sliceL bytes s
          (if e ≠ 0 ∧ bytes.getD (e - 1) 0 = 10 then e - 1 else e) :=
  findLineAt_resolves h1 h2 h3 h4

/-- C9, counterexample to the original contract: `min = 0 ≤ pos = 2 ≤ max = 2 ≤
len = 2` holds on the buffer `"A\n"`, yet `find_line_at` panics (`none`) —
`pos` sits at a `max` whose preceding byte is a newline, so the trimmed line
end falls below the line start and the slice bound check fails. -/
theorem claim_C9_counterexample :
    (0 : Nat) ≤ 2 ∧ (2 : Nat) ≤ 2 ∧ 2 ≤ ([65, 10] : List Nat).length
    ∧ findLineAt [65, 10] 0 2 2 = none := by
  decide

/-- C9 witness: on the buffer `"A\nB"` with `min = 0`, `max = 3`, `pos = 2`,
the enclosing line resolves without panic. -/
theorem claim_C9_witness :
    ∃ s e l, findLineAt [65, 10, 66] 0 3 2 = some (s, e, l) := by
  obtain ⟨s, e, l, h, -⟩ :=
    claim_C9 [65, 10, 66] 0 3 2 (by decide) (by decide) (by decide) (by decide)
  exact ⟨s, e, l, h⟩

/-- C10: `keys()` and `cols(i)` yield exactly one item per newline-separated
record, that is `count(newline) + 1` items; on the empty buffer they yield
exactly one item, the (successfully decoded) empty string — not an empty
sequence. -/
theorem claim_C10 :
    (∀ (bytes : List Nat) (kc : Nat), (keysF bytes kc).length = bytes.count 10 + 1)
    ∧ (∀ (bytes : List Nat) (i : Nat), (colsF bytes i).length = bytes.count 10 + 1)
    ∧ keysF [] 0 = [some []]
    ∧ colsF [] 0 = [some []] := by
  refine ⟨?_, ?_, by decide, by decide⟩
  · intro bytes kc
    unfold keysF
    rw [List.length_map, splitOn_length]
  · intro bytes i
    unfold colsF
    rw [List.length_map, splitOn_length]

end TextDb
